import Mathlib

/-!
Shallow embedding of the core game logic of the `tic-tac-toe` repository:
the board evaluator and move helpers of `src/utils/gameLogic.ts`, the
eviction ("Infinity") variant of `src/utils/infinityMode.ts`, and the
Socket.IO session coordinator of `server/index.js`.

JavaScript conventions used throughout the embedding:
- a board cell is `Player | null`, embedded as `Option Player`;
- `board[i]` on an array is embedded as `List.getD i none`: reading out of
  range yields `undefined`, which compares unequal to every mark and is
  falsy exactly like `null`, so `none` models both;
- `board[i] = v` is embedded as `List.set i v` (out-of-range writes never
  happen on the boards the code builds);
- `Math.random()` results are threaded as an explicit stream `rand : Nat → ℚ`
  of draws in `[0, 1)`, numbered in the order the calls execute;
- `Array.prototype.sort` with the comparator `(a, b) => a.timestamp - b.timestamp`
  is a stable sort by timestamp (guaranteed by the ECMAScript spec); it is
  embedded as a stable insertion sort, which computes the same list.
-/

inductive Player
  | X
  | O
deriving DecidableEq, Repr

/-- `'X' ? 'O' : 'X'` — the mark of the other player. -/
def Player.other : Player → Player
  | .X => .O
  | .O => .X

/-- The value of the `winner` field of `checkWinner`: a mark or `'draw'`
(`null` is `none` around this type). -/
inductive GameOutcome
  | mark (p : Player)
  | draw
deriving DecidableEq, Repr

/-- A board is the JS array of cells, `(Player | null)[]`. -/
abbrev Board := List (Option Player)

/-- `board[i]`: in-range reads give the cell, out-of-range reads give
`undefined`, which behaves as empty everywhere the code looks. -/
def cellAt (board : Board) (i : Nat) : Option Player :=
  board.getD i none

/-- The `BoardSize` union type `'3x3' | '4x4' | '5x5' | 'ultimate'`. -/
inductive BoardSize
  | x33
  | x44
  | x55
  | ultimate
deriving DecidableEq, Repr

/-- `WINNING_COMBINATIONS` (gameLogic.ts): rows, columns, diagonals of 3x3. -/
def WINNING_COMBINATIONS : List (List Nat) :=
  [[0, 1, 2], [3, 4, 5], [6, 7, 8],
   [0, 3, 6], [1, 4, 7], [2, 5, 8],
   [0, 4, 8], [2, 4, 6]]

/-- `WINNING_COMBINATIONS_4X4` (gameLogic.ts). -/
def WINNING_COMBINATIONS_4X4 : List (List Nat) :=
  [[0, 1, 2, 3], [4, 5, 6, 7], [8, 9, 10, 11], [12, 13, 14, 15],
   [0, 4, 8, 12], [1, 5, 9, 13], [2, 6, 10, 14], [3, 7, 11, 15],
   [0, 5, 10, 15], [3, 6, 9, 12]]

/-- `WINNING_COMBINATIONS_5X5` (gameLogic.ts). -/
def WINNING_COMBINATIONS_5X5 : List (List Nat) :=
  [[0, 1, 2, 3, 4], [5, 6, 7, 8, 9], [10, 11, 12, 13, 14],
   [15, 16, 17, 18, 19], [20, 21, 22, 23, 24],
   [0, 5, 10, 15, 20], [1, 6, 11, 16, 21], [2, 7, 12, 17, 22],
   [3, 8, 13, 18, 23], [4, 9, 14, 19, 24],
   [0, 6, 12, 18, 24], [4, 8, 12, 16, 20]]

/-- `getWinningCombinations` (gameLogic.ts): the line list for a size;
`'ultimate'` and the default case reuse the 3x3 lines. -/
def getWinningCombinations : BoardSize → List (List Nat)
  | .x33 => WINNING_COMBINATIONS
  | .x44 => WINNING_COMBINATIONS_4X4
  | .x55 => WINNING_COMBINATIONS_5X5
  | .ultimate => WINNING_COMBINATIONS

/-- The number of cells of a board of the given size (9, 16, 25; an
`'ultimate'` mini-board has 9 cells and is evaluated with the 3x3 rule). -/
def boardLen : BoardSize → Nat
  | .x33 => 9
  | .x44 => 16
  | .x55 => 25
  | .ultimate => 9

/-- The result record of `checkWinner`:
`{ winner: Player | 'draw' | null; line: number[] | null }`. -/
structure WinCheck where
  winner : Option GameOutcome
  line : Option (List Nat)
deriving DecidableEq, Repr

/-- The `for (const combo of combinations)` loop of `checkWinner`: the first
combination `[first, ...rest]` whose `first` cell holds a mark and whose
remaining cells all hold the same mark, with that mark. -/
def scanCombos (board : Board) : List (List Nat) → Option (Player × List Nat)
  | [] => none
  | combo :: more =>
    match combo with
    | [] => scanCombos board more
    | first :: rest =>
      match cellAt board first with
      | some p =>
        if rest.all (fun pos => cellAt board pos == some p) then
          some (p, first :: rest)
        else
          scanCombos board more
      | none => scanCombos board more

/-- `checkWinner` (gameLogic.ts): scan the size's lines for a uniform
non-empty mark; else report a draw when no cell is `null`; else nothing. -/
def checkWinner (board : Board) (boardSize : BoardSize) : WinCheck :=
  match scanCombos board (getWinningCombinations boardSize) with
  | some (p, combo) => { winner := some (.mark p), line := some combo }
  | none =>
    if board.all (fun cell => cell.isSome) then
      { winner := some .draw, line := none }
    else
      { winner := none, line := none }

/-- A JavaScript `number` as minimax uses it: an integer score or ±`Infinity`. -/
inductive JNum
  | negInf
  | num (z : Int)
  | posInf
deriving DecidableEq, Repr

/-- `a <= b` on scores (used by the pruning test `beta <= alpha`). -/
def JNum.le : JNum → JNum → Bool
  | .negInf, _ => true
  | _, .posInf => true
  | .num a, .num b => a ≤ b
  | .posInf, _ => false
  | .num _, .negInf => false

/-- `a < b` on scores (used by `score > bestScore`). -/
def JNum.lt : JNum → JNum → Bool
  | _, .negInf => false
  | .negInf, _ => true
  | .num a, .num b => a < b
  | .posInf, _ => false
  | .num _, .posInf => true

/-- `Math.max` on scores. -/
def JNum.max (a b : JNum) : JNum := if JNum.le a b then b else a

/-- `Math.min` on scores. -/
def JNum.min (a b : JNum) : JNum := if JNum.le a b then a else b

/-- The maximizing `for` loop of `minimax`: fold over the cell indices,
skipping occupied cells, keeping `maxEval`/`alpha`, and breaking (returning
the current `maxEval`) as soon as `beta <= alpha`.  `recur b a` is the
recursive `minimax` call on child board `b` with alpha `a` (beta is fixed). -/
def abMaxLoop (recur : Board → JNum → JNum) (beta : JNum) (board : Board) :
    List Nat → JNum → JNum → JNum
  | [], maxEval, _ => maxEval
  | i :: rest, maxEval, alpha =>
    match cellAt board i with
    | some _ => abMaxLoop recur beta board rest maxEval alpha
    | none =>
      let evalScore := recur (board.set i (some Player.O)) alpha
      let maxEval' := JNum.max maxEval evalScore
      let alpha' := JNum.max alpha evalScore
      if JNum.le beta alpha' then maxEval'
      else abMaxLoop recur beta board rest maxEval' alpha'

/-- The minimizing `for` loop of `minimax`, symmetric to `abMaxLoop`:
`recur b bta` is the recursive call with beta `bta` (alpha is fixed). -/
def abMinLoop (recur : Board → JNum → JNum) (alpha : JNum) (board : Board) :
    List Nat → JNum → JNum → JNum
  | [], minEval, _ => minEval
  | i :: rest, minEval, beta =>
    match cellAt board i with
    | some _ => abMinLoop recur alpha board rest minEval beta
    | none =>
      let evalScore := recur (board.set i (some Player.X)) beta
      let minEval' := JNum.min minEval evalScore
      let beta' := JNum.min beta evalScore
      if JNum.le beta' alpha then minEval'
      else abMinLoop recur alpha board rest minEval' beta'

/-- `minimax` (gameLogic.ts) with alpha-beta pruning.  The JS recursion
terminates because every call fills one empty cell; the embedding makes that
explicit with a fuel argument, always called with fuel larger than the
number of empty cells (so the fuel-exhausted branch is unreachable). -/
def minimax : Nat → Board → Nat → Bool → JNum → JNum → BoardSize → JNum
  | 0, _, _, _, _, _, _ => .num 0
  | fuel + 1, board, depth, isMaximizing, alpha, beta, boardSize =>
    match (checkWinner board boardSize).winner with
    | some (.mark .O) => .num (10 - (depth : Int))
    | some (.mark .X) => .num ((depth : Int) - 10)
    | some .draw => .num 0
    | none =>
      if isMaximizing then
        abMaxLoop (fun b a => minimax fuel b (depth + 1) false a beta boardSize)
          beta board (List.range board.length) JNum.negInf alpha
      else
        abMinLoop (fun b bta => minimax fuel b (depth + 1) true alpha bta boardSize)
          alpha board (List.range board.length) JNum.posInf beta

/-- The difficulty tiers of `getAIMove`. -/
inductive Difficulty
  | easy
  | medium
  | hard
  | god
deriving DecidableEq, Repr

/-- The `board.reduce` that collects the indices of the empty cells, in
ascending order. -/
def availableMovesAux : List (Option Player) → Nat → List Nat
  | [], _ => []
  | none :: rest, i => i :: availableMovesAux rest (i + 1)
  | some _ :: rest, i => availableMovesAux rest (i + 1)

/-- `availableMoves` of `getAIMove`: the empty cell indices of the board. -/
def availableMoves (board : Board) : List Nat := availableMovesAux board 0

/-- The "Try to win or block" loop of `getAIMove` (run for medium, hard and
god): for each available move IN INDEX ORDER, first test whether `'O'` there
wins, then whether `'X'` there wins (a block); return the first hit. -/
def tryWinBlock (board : Board) (boardSize : BoardSize) : List Nat → Option Nat
  | [] => none
  | move :: rest =>
    if (checkWinner (board.set move (some Player.O)) boardSize).winner = some (.mark .O) then
      some move
    else if (checkWinner (board.set move (some Player.X)) boardSize).winner = some (.mark .X) then
      some move
    else
      tryWinBlock board boardSize rest

/-- The best-move loop shared by the god and hard branches of `getAIMove`:
try `'O'` on each available move, score it with `minimax`, and keep the first
move whose score strictly beats the best so far (`score > bestScore`). -/
def bestMoveLoop (board : Board) (boardSize : BoardSize) :
    List Nat → JNum → Int → Int
  | [], _, bestMove => bestMove
  | move :: rest, bestScore, bestMove =>
    let score := minimax (board.length + 1) (board.set move (some Player.O))
      0 false JNum.negInf JNum.posInf boardSize
    if JNum.lt bestScore score then bestMoveLoop board boardSize rest score move
    else bestMoveLoop board boardSize rest bestScore bestMove

/-- `getAIMove` (gameLogic.ts).  `rand n` is the value of the (n+1)-th
`Math.random()` call of the run (every control path draws at most twice:
`rand 0` for the easy choice or the medium/hard probability test, `rand 1`
for the medium or fallback random choice).  Returns `-1` when the board has
no empty cell, else a cell index. -/
def getAIMove (board : Board) (difficulty : Difficulty) (boardSize : BoardSize)
    (rand : Nat → ℚ) : Int :=
  let avail := availableMoves board
  if avail.length = 0 then -1
  else if difficulty = .easy then
    ((avail.getD (⌊rand 0 * (avail.length : ℚ)⌋).toNat 0 : Nat) : Int)
  else if difficulty = .medium ∧ 7/10 < rand 0 then
    ((avail.getD (⌊rand 1 * (avail.length : ℚ)⌋).toNat 0 : Nat) : Int)
  else
    match tryWinBlock board boardSize avail with
    | some move => (move : Int)
    | none =>
      if difficulty = .god then
        bestMoveLoop board boardSize avail JNum.negInf ((avail.headD 0 : Nat) : Int)
      else if difficulty = .hard ∧ rand 0 < 8/10 then
        bestMoveLoop board boardSize avail JNum.negInf ((avail.headD 0 : Nat) : Int)
      else
        let centerIndex : Nat :=
          if boardSize = .x33 then 4
          else if boardSize = .x44 then 5
          else if boardSize = .x55 then 12
          else 4
        if cellAt board centerIndex = none then (centerIndex : Int)
        else ((avail.getD (⌊rand 1 * (avail.length : ℚ)⌋).toNat 0 : Nat) : Int)

/-- A `MoveInfo` entry of the eviction ("Infinity") variant's move history. -/
structure MoveInfo where
  player : Player
  index : Nat
  timestamp : Nat
deriving DecidableEq, Repr

/-- The result record of `processInfinityMove`. -/
structure InfinityResult where
  board : Board
  moveHistory : List MoveInfo
  fadingSymbols : List Nat
  nextFadingSymbols : List Nat
deriving DecidableEq, Repr

/-- One step of a stable insertion sort by timestamp: insert `m` after every
already-placed entry whose timestamp is `<= m.timestamp`. -/
def insertByTimestamp : List MoveInfo → MoveInfo → List MoveInfo
  | [], m => [m]
  | n :: rest, m =>
    if m.timestamp < n.timestamp then m :: n :: rest
    else n :: insertByTimestamp rest m

/-- `moves.sort((a, b) => a.timestamp - b.timestamp)`: the ECMAScript sort is
stable, so it computes exactly this stable insertion sort. -/
def sortByTimestamp (moves : List MoveInfo) : List MoveInfo :=
  moves.foldl insertByTimestamp []

/-- The "pending eviction" preview of `processInfinityMove`: once a player's
history holds 3 or more entries, their oldest entry's cell fades next. -/
def nextFadingFor (history : List MoveInfo) (nextPlayer : Player) : List Nat :=
  let nextPlayerMoves := history.filter (fun m => m.player == nextPlayer)
  if 3 ≤ nextPlayerMoves.length then
    match sortByTimestamp nextPlayerMoves with
    | m :: _ => [m.index]
    | [] => []
  else []

/-- `processInfinityMove` (infinityMode.ts): place the mark, append the move
to the history, and if the mover now holds more than 3 entries remove their
oldest entry (lowest timestamp) from both the board and the history before
returning; also surface the other player's pending eviction.  `now` is the
`Date.now()` timestamp of this move. -/
def processInfinityMove (board : Board) (index : Nat) (player : Player)
    (moveHistory : List MoveInfo) (now : Nat) : InfinityResult :=
  let boardCopy := board.set index (some player)
  let newMove : MoveInfo := { player := player, index := index, timestamp := now }
  let newMoveHistory := moveHistory ++ [newMove]
  let playerMoves := newMoveHistory.filter (fun m => m.player == player)
  if 3 < playerMoves.length then
    match sortByTimestamp playerMoves with
    | oldestMove :: _ =>
      let finalBoard := boardCopy.set oldestMove.index none
      let finalHistory := newMoveHistory.filter
        (fun m => !(m.index == oldestMove.index && m.player == player))
      { board := finalBoard
        moveHistory := finalHistory
        fadingSymbols := [oldestMove.index]
        nextFadingSymbols := nextFadingFor finalHistory player.other }
    | [] =>
      -- unreachable: `playerMoves` has more than 3 entries, so its sort is nonempty
      { board := boardCopy
        moveHistory := newMoveHistory
        fadingSymbols := []
        nextFadingSymbols := nextFadingFor newMoveHistory player.other }
  else
    { board := boardCopy
      moveHistory := newMoveHistory
      fadingSymbols := []
      nextFadingSymbols := nextFadingFor newMoveHistory player.other }

/-- The nested-variant state: nine mini-boards, the constrained-board
pointer (`null` = free choice) and the meta-board of per-mini-board results. -/
structure UltimateBoard where
  boards : List Board
  activeBoard : Option Nat
  winners : List (Option GameOutcome)
deriving DecidableEq, Repr

/-- `initializeUltimateBoard` (gameLogic.ts). -/
def initializeUltimateBoard : UltimateBoard :=
  { boards := List.replicate 9 (List.replicate 9 none)
    activeBoard := none
    winners := List.replicate 9 none }

/-- The result record of `makeUltimateMove`. -/
structure UltimateMoveResult where
  newBoard : UltimateBoard
  validMove : Bool
deriving DecidableEq, Repr

/-- `makeUltimateMove` (gameLogic.ts): reject a move to the wrong mini-board,
to a decided mini-board, or to an occupied cell; otherwise place the mark,
re-evaluate the mini-board with the 3x3 rule (recording a win or draw on the
meta-board), and point the next player at mini-board `cellIndex`, freed when
that mini-board is already decided. -/
def makeUltimateMove (ultimateBoard : UltimateBoard) (boardIndex cellIndex : Nat)
    (player : Player) : UltimateMoveResult :=
  if (ultimateBoard.activeBoard ≠ none ∧ ultimateBoard.activeBoard ≠ some boardIndex)
      ∨ ultimateBoard.winners.getD boardIndex none ≠ none
      ∨ cellAt (ultimateBoard.boards.getD boardIndex []) cellIndex ≠ none then
    { newBoard := ultimateBoard, validMove := false }
  else
    let board := (ultimateBoard.boards.getD boardIndex []).set cellIndex (some player)
    let newBoards := ultimateBoard.boards.set boardIndex board
    let winner := (checkWinner board .x33).winner
    let newWinners :=
      match winner with
      | some w => ultimateBoard.winners.set boardIndex (some w)
      | none => ultimateBoard.winners
    let nextActiveBoard : Option Nat :=
      if newWinners.getD cellIndex none ≠ none then none else some cellIndex
    { newBoard :=
        { boards := newBoards, winners := newWinners, activeBoard := nextActiveBoard }
      validMove := true }

namespace Server

/-- A participant slot of a room: `{ id: socket.id, symbol }`. -/
structure PlayerSlot where
  id : String
  symbol : Player
deriving DecidableEq, Repr

/-- A room of `server/index.js`: the participant slots, the authoritative
turn, the authoritative 9-cell board, and the last-move time. -/
structure Room where
  players : List PlayerSlot
  currentTurn : Player
  board : Board
  lastMoveTime : Option Nat
deriving DecidableEq, Repr

/-- The server's mutable state: the `rooms` map and the `playerToRoom` index,
as association lists looked up by first match (JS `Map.get`). -/
structure ServerState where
  rooms : List (String × Room)
  playerToRoom : List (String × String)
deriving DecidableEq, Repr

/-- `Map.get`: the value at the first matching key. -/
def lookup (m : List (String × α)) (k : String) : Option α :=
  match m.find? (fun kv => kv.1 == k) with
  | some kv => some kv.2
  | none => none

/-- `Map.set`: replace the value at the key, or append a new binding. -/
def setKey (m : List (String × α)) (k : String) (v : α) : List (String × α) :=
  match m with
  | [] => [(k, v)]
  | kv :: rest => if kv.1 == k then (k, v) :: rest else kv :: setKey rest k v

/-- The wire events the embedded handlers produce. -/
inductive EmitPayload
  | error (msg : String)
  | moveMade (position : Int) (symbol : Player) (board : Board) (currentTurn : Player)
  | gameOver (winner : GameOutcome)
  | gameStart (roomCode : String) (isPlayerX : Bool) (playerSymbol : Player)
      (currentTurn : Player) (players : List PlayerSlot)
  | gameStartAll (roomCode : String) (currentTurn : Player) (players : List PlayerSlot)
deriving DecidableEq, Repr

/-- An event the handler emits, with its audience: `socket.emit` reaches the
requesting socket only; `io.to(code).emit` reaches every socket joined to the
Socket.IO room `code` — for a playing room, both participants. -/
inductive Emit
  | toSocket (sid : String) (payload : EmitPayload)
  | toRoom (code : String) (payload : EmitPayload)
deriving DecidableEq, Repr

end Server

namespace Server

/-- One line test of the inline winner scan of the `make_move` handler:
`board[i] && board[i] === board[j] && board[i] === board[k]`. -/
def lineTriple (b : Board) (i j k : Nat) : Option Player :=
  match cellAt b i with
  | some v => if cellAt b j = some v ∧ cellAt b k = some v then some v else none
  | none => none

/-- A `for` loop over line triples: the first one uniformly held by a mark. -/
def scanTriples (b : Board) : List (Nat × Nat × Nat) → Option Player
  | [] => none
  | (i, j, k) :: rest =>
    match lineTriple b i j k with
    | some v => some v
    | none => scanTriples b rest

/-- The inline terminal evaluation of the `make_move` handler: rows, then
columns, then the two diagonals, then a draw when the board has no `null`. -/
def serverWinner (b : Board) : Option GameOutcome :=
  match scanTriples b [(0, 1, 2), (3, 4, 5), (6, 7, 8)] with
  | some v => some (.mark v)
  | none =>
    match scanTriples b [(0, 3, 6), (1, 4, 7), (2, 5, 8)] with
    | some v => some (.mark v)
    | none =>
      match lineTriple b 0 4 8 with
      | some v => some (.mark v)
      | none =>
        match lineTriple b 2 4 6 with
        | some v => some (.mark v)
        | none => if b.all (fun c => c.isSome) then some .draw else none

/-- The `make_move` handler (server/index.js).  The client payload is
`{ position, symbol, board }`; `position` is any integer the client sent
(a fractional or otherwise malformed position indexes no cell and behaves
as out of range), `symbol` and `payloadBoard` are the client-claimed mark
and board.  `now` is `Date.now()`.  Returns the new server state and the
emitted events. -/
def makeMove (s : ServerState) (sid : String) (position : Int)
    (symbol : Option Player) (payloadBoard : Board) (now : Nat) :
    ServerState × List Emit :=
  match lookup s.playerToRoom sid with
  | none => (s, [.toSocket sid (.error "Not in any room")])
  | some roomCode =>
    match lookup s.rooms roomCode with
    | none => (s, [.toSocket sid (.error "Room not found")])
    | some room =>
      match room.players.find? (fun p => p.id == sid) with
      | none => (s, [.toSocket sid (.error "Player not found in room")])
      | some player =>
        if room.currentTurn ≠ player.symbol then
          (s, [.toSocket sid (.error "Not your turn")])
        else if 0 ≤ position ∧ position < 9 ∧ cellAt room.board position.toNat = none then
          let newBoard := room.board.set position.toNat (some player.symbol)
          let newTurn := player.symbol.other
          let room' := { room with
            board := newBoard, currentTurn := newTurn, lastMoveTime := some now }
          let s' := { s with rooms := setKey s.rooms roomCode room' }
          let base := [Emit.toRoom roomCode (.moveMade position player.symbol newBoard newTurn)]
          match serverWinner newBoard with
          | some w => (s', base ++ [Emit.toRoom roomCode (.gameOver w)])
          | none => (s', base)
        else
          (s, [.toSocket sid (.error "Invalid move")])

/-- The `join_room` handler (server/index.js).  `live sid` models whether
`io.sockets.sockets.get(sid)` yields a connected socket.  An empty
participant list makes `room.players[0].symbol` throw, which the handler's
`catch` turns into the "Failed to join room" error. -/
def joinRoom (s : ServerState) (sid : String) (data : Option String)
    (live : String → Bool) : ServerState × List Emit :=
  match data with
  | none => (s, [.toSocket sid (.error "Room code is required")])
  | some roomCode =>
    match lookup s.rooms roomCode with
    | none => (s, [.toSocket sid (.error "Room not found")])
    | some room =>
      if 2 ≤ room.players.length then
        match (if room.players.any (fun p => p.id == sid) then
                room.players.find? (fun p => p.id == sid) else none) with
        | some playerInfo =>
          (s, [.toSocket sid (.gameStart roomCode (playerInfo.symbol == .X)
                playerInfo.symbol room.currentTurn room.players)])
        | none =>
          match room.players.findIdx? (fun p => !live p.id) with
          | some i =>
            match room.players.get? i with
            | some replacedPlayer =>
              let players' := room.players.set i { id := sid, symbol := replacedPlayer.symbol }
              let room' := { room with players := players' }
              let s' : ServerState :=
                { rooms := setKey s.rooms roomCode room'
                  playerToRoom := setKey s.playerToRoom sid roomCode }
              (s', [.toSocket sid (.gameStart roomCode (replacedPlayer.symbol == .X)
                    replacedPlayer.symbol room.currentTurn players')])
            | none => (s, [.toSocket sid (.error "Room is full")])
          | none => (s, [.toSocket sid (.error "Room is full")])
      else
        match room.players with
        | [] => (s, [.toSocket sid (.error "Failed to join room")])
        | p0 :: _ =>
          let playerSymbol := if p0.symbol == Player.X then Player.O else Player.X
          let players' := room.players ++ [{ id := sid, symbol := playerSymbol }]
          let room' := { room with players := players' }
          let s' : ServerState :=
            { rooms := setKey s.rooms roomCode room'
              playerToRoom := setKey s.playerToRoom sid roomCode }
          let broadcast := Emit.toRoom roomCode (.gameStartAll roomCode .X players')
          let indiv := players'.filterMap (fun p =>
            if live p.id then
              some (Emit.toSocket p.id (.gameStart roomCode (p.symbol == .X) p.symbol .X players'))
            else none)
          (s', broadcast :: indiv)

end Server

/-- The empty 3x3 board. -/
def emptyBoard3 : Board := List.replicate 9 none

/-- A local game against the god tier, as the app plays it: the human plays
`X` at the listed cells in order, the computer replies with
`getAIMove(board, 'god')` as `O` after each one; stops at the first terminal
position; `none` if a listed human move hits an occupied cell.  The god tier
draws no random numbers, so the random stream is irrelevant. -/
def runGodGame : Board → List Nat → Option Board
  | board, [] => some board
  | board, m :: rest =>
    if (checkWinner board .x33).winner ≠ none then some board
    else if cellAt board m ≠ none then none
    else
      let afterX := board.set m (some Player.X)
      if (checkWinner afterX .x33).winner ≠ none then some afterX
      else
        let g := getAIMove afterX .god .x33 (fun _ => 0)
        runGodGame (afterX.set g.toNat (some Player.O)) rest

/-! ## Properties of the line scan -/

/-- A generated line fully occupied by one non-empty mark. -/
def isWinLine (board : Board) (combo : List Nat) : Prop :=
  ∃ p, combo ≠ [] ∧ ∀ i ∈ combo, cellAt board i = some p


theorem scanCombos_cons (board : Board) (first : Nat) (rest : List Nat)
    (more : List (List Nat)) :
    scanCombos board ((first :: rest) :: more) =
      match cellAt board first with
      | some p =>
        if rest.all (fun pos => cellAt board pos == some p) then some (p, first :: rest)
        else scanCombos board more
      | none => scanCombos board more := rfl

theorem scanCombos_isSome_iff (board : Board) (combos : List (List Nat)) :
    (scanCombos board combos).isSome ↔ ∃ c ∈ combos, isWinLine board c := by
  induction combos with
  | nil => simp [scanCombos]
  | cons combo more ih =>
    have step : ∀ h : (scanCombos board more).isSome ↔ ∃ c ∈ more, isWinLine board c,
        ¬ isWinLine board combo →
        ((scanCombos board more).isSome ↔ ∃ c ∈ combo :: more, isWinLine board c) := by
      intro h hno
      rw [h]
      constructor
      · rintro ⟨c, hc, hwin⟩
        exact ⟨c, List.mem_cons.mpr (Or.inr hc), hwin⟩
      · rintro ⟨c, hc, hwin⟩
        rcases List.mem_cons.mp hc with rfl | hc
        · exact absurd hwin hno
        · exact ⟨c, hc, hwin⟩
    cases combo with
    | nil =>
      have : scanCombos board ([] :: more) = scanCombos board more := rfl
      rw [this]
      exact step ih (by rintro ⟨p, hne, -⟩; exact hne rfl)
    | cons first rest =>
      rw [scanCombos_cons]
      cases hfirst : cellAt board first with
      | none =>
        dsimp only
        refine step ih ?_
        rintro ⟨p, -, hall⟩
        have := hall first (List.mem_cons_self first rest)
        rw [hfirst] at this
        cases this
      | some p =>
        dsimp only
        by_cases hall : rest.all (fun pos => cellAt board pos == some p) = true
        · rw [if_pos hall]
          simp only [Option.isSome_some, true_iff]
          refine ⟨first :: rest, List.mem_cons_self _ _, p, by simp, ?_⟩
          intro i hi
          rcases List.mem_cons.mp hi with rfl | hi
          · exact hfirst
          · exact eq_of_beq (List.all_eq_true.mp hall i hi)
        · rw [if_neg hall]
          refine step ih ?_
          rintro ⟨q, -, hq⟩
          have hq1 := hq first (List.mem_cons_self first rest)
          rw [hfirst] at hq1
          obtain rfl : p = q := by injection hq1
          refine hall (List.all_eq_true.mpr fun i hi => beq_iff_eq.mpr ?_)
          exact hq i (List.mem_cons.mpr (Or.inr hi))

theorem scanCombos_eq_some (board : Board) (combos : List (List Nat))
    (p : Player) (c : List Nat) (h : scanCombos board combos = some (p, c)) :
    c ∈ combos ∧ ∀ i ∈ c, cellAt board i = some p := by
  induction combos with
  | nil => simp [scanCombos] at h
  | cons combo more ih =>
    have tailcase : scanCombos board more = some (p, c) →
        c ∈ combo :: more ∧ ∀ i ∈ c, cellAt board i = some p := by
      intro h'
      obtain ⟨hmem, hall⟩ := ih h'
      exact ⟨List.mem_cons.mpr (Or.inr hmem), hall⟩
    cases combo with
    | nil => exact tailcase h
    | cons first rest =>
      rw [scanCombos_cons] at h
      cases hfirst : cellAt board first with
      | none =>
        rw [hfirst] at h
        exact tailcase h
      | some q =>
        rw [hfirst] at h
        dsimp only at h
        by_cases hall : rest.all (fun pos => cellAt board pos == some q) = true
        · rw [if_pos hall] at h
          injection h with h1
          obtain ⟨rfl, rfl⟩ : q = p ∧ first :: rest = c := Prod.mk.injEq .. ▸ Prod.mk.inj h1
          refine ⟨List.mem_cons_self _ _, ?_⟩
          intro i hi
          rcases List.mem_cons.mp hi with rfl | hi
          · exact hfirst
          · exact eq_of_beq (List.all_eq_true.mp hall i hi)
        · rw [if_neg hall] at h
          exact tailcase h

/-- C1: for every board of a supported size N in {3,4,5}, `checkWinner`
reports a winner iff some generated line (row, column or diagonal of the
configured size) is fully occupied by one non-empty mark, reports a draw iff
every cell is non-empty and no such line exists, and never reports both. -/
theorem checkWinner_terminal_iff (boardSize : BoardSize) (board : Board)
    (hsz : boardSize ≠ .ultimate) (hlen : board.length = boardLen boardSize) :
    ((∃ p line, checkWinner board boardSize = ⟨some (.mark p), some line⟩) ↔
      ∃ c ∈ getWinningCombinations boardSize, isWinLine board c) ∧
    ((checkWinner board boardSize).winner = some .draw ↔
      ((∀ cell ∈ board, cell ≠ none) ∧
        ¬ ∃ c ∈ getWinningCombinations boardSize, isWinLine board c)) ∧
    ¬ ((∃ p, (checkWinner board boardSize).winner = some (.mark p)) ∧
      (checkWinner board boardSize).winner = some .draw) := by
  clear hsz hlen
  have hiff := scanCombos_isSome_iff board (getWinningCombinations boardSize)
  cases hscan : scanCombos board (getWinningCombinations boardSize) with
  | some pc =>
    obtain ⟨p, c⟩ := pc
    have hck : checkWinner board boardSize = ⟨some (.mark p), some c⟩ := by
      simp [checkWinner, hscan]
    rw [hscan] at hiff
    simp only [Option.isSome_some, true_iff] at hiff
    refine ⟨⟨fun _ => hiff, fun _ => ⟨p, c, hck⟩⟩, ?_, ?_⟩
    · rw [hck]
      simp only [WinCheck.winner]
      constructor
      · intro h
        cases h
      · rintro ⟨-, hno⟩
        exact absurd hiff hno
    · rw [hck]
      rintro ⟨-, hdraw⟩
      simp only [WinCheck.winner] at hdraw
      cases hdraw
  | none =>
    rw [hscan] at hiff
    simp only [Option.isSome_none, Bool.false_eq_true, false_iff] at hiff
    have hck : checkWinner board boardSize =
        if board.all (fun cell => cell.isSome) then
          { winner := some .draw, line := none }
        else
          { winner := none, line := none } := by
      simp [checkWinner, hscan]
    by_cases hfull : board.all (fun cell => cell.isSome) = true
    · rw [if_pos hfull] at hck
      refine ⟨?_, ?_, ?_⟩
      · rw [hck]
        constructor
        · rintro ⟨p, line, hpl⟩
          injection hpl with h1 h2
          simp at h1
        · intro h
          exact absurd h hiff
      · rw [hck]
        simp only [WinCheck.winner, true_iff]
        refine ⟨?_, hiff⟩
        intro cell hcell
        have := List.all_eq_true.mp hfull cell hcell
        exact Option.isSome_iff_ne_none.mp this
      · rw [hck]
        rintro ⟨⟨p, hp⟩, -⟩
        simp only [WinCheck.winner] at hp
        cases hp
    · rw [if_neg hfull] at hck
      refine ⟨?_, ?_, ?_⟩
      · rw [hck]
        constructor
        · rintro ⟨p, line, hpl⟩
          injection hpl with h1 h2
          cases h1
        · intro h
          exact absurd h hiff
      · rw [hck]
        simp only [WinCheck.winner]
        constructor
        · intro h
          cases h
        · rintro ⟨hall, -⟩
          refine absurd ?_ hfull
          refine List.all_eq_true.mpr fun cell hcell => ?_
          exact Option.isSome_iff_ne_none.mpr (hall cell hcell)
      · rw [hck]
        rintro ⟨⟨p, hp⟩, -⟩
        simp only [WinCheck.winner] at hp
        cases hp

/-- Witness for C1 at a concrete input: the 3x3 board with the top row all
`X` satisfies the winner characterization. -/
theorem checkWinner_terminal_iff_witness :
    (∃ p line,
        checkWinner [some Player.X, some Player.X, some Player.X,
          none, none, none, none, none, none] .x33 = ⟨some (.mark p), some line⟩) ↔
      ∃ c ∈ getWinningCombinations .x33,
        isWinLine [some Player.X, some Player.X, some Player.X,
          none, none, none, none, none, none] c :=
  (checkWinner_terminal_iff .x33
    [some Player.X, some Player.X, some Player.X,
      none, none, none, none, none, none] (by decide) (by decide)).1

theorem cellAt_set_none (l : Board) (j : Nat) : cellAt (l.set j none) j = none := by
  induction l generalizing j with
  | nil => simp [cellAt]
  | cons a tl ih =>
    cases j with
    | zero => simp [cellAt]
    | succ n => simpa [cellAt, List.set] using ih n

/-- When an eviction fires, the returned board is the placed board with the
evicted cell cleared (the clear happens after the placement). -/
theorem processInfinityMove_evicted (board : Board) (index : Nat) (player : Player)
    (history : List MoveInfo) (now : Nat) (j : Nat)
    (h : (processInfinityMove board index player history now).fadingSymbols = [j]) :
    (processInfinityMove board index player history now).board =
      (board.set index (some player)).set j none := by
  simp only [processInfinityMove] at h ⊢
  split at h
  · split at h
    · rename_i hgt x m tail heq
      have hj : m.index = j := by simpa using h
      rw [if_pos hgt, hj]
    · simp at h
  · simp at h

/-- A winner reported by `checkWinner` holds every cell of the reported line. -/
theorem checkWinner_line_cells (b : Board) (sz : BoardSize) (w : Player)
    (line : List Nat) (h : checkWinner b sz = ⟨some (.mark w), some line⟩) :
    ∀ i ∈ line, cellAt b i = some w := by
  cases hscan : scanCombos b (getWinningCombinations sz) with
  | some pc =>
    obtain ⟨p, c⟩ := pc
    have hck : checkWinner b sz = ⟨some (.mark p), some c⟩ := by
      simp [checkWinner, hscan]
    rw [hck] at h
    simp only [WinCheck.mk.injEq, Option.some.injEq, GameOutcome.mark.injEq] at h
    obtain ⟨rfl, rfl⟩ := h
    exact (scanCombos_eq_some b _ p c hscan).2
  | none =>
    have hck : checkWinner b sz =
        if b.all (fun cell => cell.isSome) then
          { winner := some .draw, line := none }
        else
          { winner := none, line := none } := by
      simp [checkWinner, hscan]
    rw [hck] at h
    split at h <;> simp at h

/-- C4: in the eviction variant, when a move evicts the mover's oldest mark,
the board returned by `processInfinityMove` already has the evicted cell
cleared, so the terminal evaluation the move step runs on that board can
never report a winning line through the evicted cell. -/
theorem processInfinityMove_eviction_before_eval (board : Board) (index : Nat)
    (player : Player) (history : List MoveInfo) (now : Nat) (sz : BoardSize) (j : Nat)
    (h : (processInfinityMove board index player history now).fadingSymbols = [j]) :
    cellAt (processInfinityMove board index player history now).board j = none ∧
    ∀ w line,
      checkWinner (processInfinityMove board index player history now).board sz =
        ⟨some (.mark w), some line⟩ → j ∉ line := by
  have hb := processInfinityMove_evicted board index player history now j h
  have hcell : cellAt (processInfinityMove board index player history now).board j = none := by
    rw [hb]
    exact cellAt_set_none _ j
  refine ⟨hcell, ?_⟩
  intro w line hwin hmem
  have := checkWinner_line_cells _ sz w line hwin j hmem
  rw [hcell] at this
  cases this

/-- Witness for C4: player X's fourth move (cell 3, after marks on 0, 1, 2)
evicts cell 0, and the returned board reads empty there. -/
theorem processInfinityMove_eviction_before_eval_witness :
    cellAt (processInfinityMove
      [some Player.X, some Player.X, some Player.X, none, some Player.O,
        some Player.O, none, none, none] 3 Player.X
      [⟨Player.X, 0, 0⟩, ⟨Player.O, 4, 1⟩, ⟨Player.X, 1, 2⟩, ⟨Player.O, 5, 3⟩,
        ⟨Player.X, 2, 4⟩] 5).board 0 = none :=
  (processInfinityMove_eviction_before_eval
    [some Player.X, some Player.X, some Player.X, none, some Player.O,
      some Player.O, none, none, none] 3 Player.X
    [⟨Player.X, 0, 0⟩, ⟨Player.O, 4, 1⟩, ⟨Player.X, 1, 2⟩, ⟨Player.O, 5, 3⟩,
      ⟨Player.X, 2, 4⟩] 5 .x33 0 (by decide)).1

theorem getD_set_self {l : List α} {i : Nat} (a d : α) (h : i < l.length) :
    (l.set i a).getD i d = a := by
  rw [List.getD_eq_getElem?_getD, List.getElem?_set_self h]
  rfl

theorem getD_set_ne {l : List α} {i j : Nat} (a d : α) (h : i ≠ j) :
    (l.set i a).getD j d = l.getD j d := by
  rw [List.getD_eq_getElem?_getD, List.getElem?_set_ne h, ← List.getD_eq_getElem?_getD]

theorem getD_of_le (l : List α) {i : Nat} (d : α) (h : l.length ≤ i) :
    l.getD i d = d := by
  rw [List.getD_eq_getElem?_getD, List.getElem?_eq_none h]
  rfl

theorem getD_replicate_self (n i : Nat) (d : α) : (List.replicate n d).getD i d = d := by
  induction n generalizing i with
  | zero => simp [List.getD]
  | succ m ih =>
    cases i with
    | zero => rfl
    | succ k => simpa [List.replicate] using ih k

/-- The nested-variant states reachable from `initializeUltimateBoard`
through accepted (`validMove = true`) `makeUltimateMove` steps. -/
inductive UReachable : UltimateBoard → Prop
  | init : UReachable initializeUltimateBoard
  | step (ub : UltimateBoard) (bi ci : Nat) (p : Player) :
      UReachable ub → (makeUltimateMove ub bi ci p).validMove = true →
      UReachable (makeUltimateMove ub bi ci p).newBoard

/-- The inductive invariant of the nested variant: nine mini-boards, nine
meta-cells, and a meta-cell is decided only when its mini-board is terminal
under the 3x3 rule. -/
structure UInv (ub : UltimateBoard) : Prop where
  boardsLen : ub.boards.length = 9
  winnersLen : ub.winners.length = 9
  terminalOnly : ∀ i w, ub.winners.getD i none = some w →
    (checkWinner (ub.boards.getD i []) .x33).winner ≠ none

theorem uinv_init : UInv initializeUltimateBoard := by
  refine ⟨by simp [initializeUltimateBoard], by simp [initializeUltimateBoard], ?_⟩
  intro i w hw
  rw [show initializeUltimateBoard.winners = List.replicate 9 none from rfl,
    getD_replicate_self] at hw
  cases hw

theorem makeUltimateMove_preserves_uinv (ub : UltimateBoard) (bi ci : Nat)
    (p : Player) (h : UInv ub) : UInv (makeUltimateMove ub bi ci p).newBoard := by
  simp only [makeUltimateMove]
  split
  · exact h
  · rename_i hvalid
    rw [not_or, not_or] at hvalid
    obtain ⟨-, hwnone, -⟩ := hvalid
    rw [not_not] at hwnone
    cases hw : (checkWinner ((ub.boards.getD bi []).set ci (some p)) .x33).winner with
    | none =>
      refine ⟨by simpa using h.boardsLen, by simpa using h.winnersLen, ?_⟩
      intro i w hwin
      simp only at hwin ⊢
      by_cases hib : i = bi
      · subst hib
        rw [hwnone] at hwin
        cases hwin
      · have hbi : bi ≠ i := fun hx => hib hx.symm
        rw [getD_set_ne _ _ hbi]
        exact h.terminalOnly i w hwin
    | some w0 =>
      refine ⟨by simpa using h.boardsLen, by simpa using h.winnersLen, ?_⟩
      intro i w hwin
      simp only at hwin ⊢
      by_cases hib : i = bi
      · subst hib
        by_cases hilen : i < ub.winners.length
        · have hbl : i < ub.boards.length := by
            rw [h.boardsLen]
            rw [h.winnersLen] at hilen
            exact hilen
          rw [getD_set_self _ _ hilen] at hwin
          rw [getD_set_self _ _ hbl, hw]
          simp
        · rw [List.getD_eq_getElem?_getD, List.getElem?_eq_none
            (by simpa using Nat.le_of_not_lt hilen)] at hwin
          cases hwin
      · have hbi : bi ≠ i := fun hx => hib hx.symm
        rw [getD_set_ne _ _ hbi] at hwin
        rw [getD_set_ne _ _ hbi]
        exact h.terminalOnly i w hwin

theorem ureachable_uinv (ub : UltimateBoard) (h : UReachable ub) : UInv ub := by
  induction h with
  | init => exact uinv_init
  | step ub bi ci p _ _ ih => exact makeUltimateMove_preserves_uinv ub bi ci p ih

/-- A decided meta-cell is never changed by any later step, accepted or not. -/
theorem makeUltimateMove_winners_frozen (ub : UltimateBoard) (bi ci : Nat)
    (p : Player) (i : Nat) (w : GameOutcome)
    (hw : ub.winners.getD i none = some w) :
    ((makeUltimateMove ub bi ci p).newBoard).winners.getD i none = some w := by
  simp only [makeUltimateMove]
  split
  · exact hw
  · rename_i hvalid
    rw [not_or, not_or] at hvalid
    obtain ⟨-, hwnone, -⟩ := hvalid
    rw [not_not] at hwnone
    cases hcw : (checkWinner ((ub.boards.getD bi []).set ci (some p)) .x33).winner with
    | none => exact hw
    | some w0 =>
      simp only
      by_cases hib : i = bi
      · subst hib
        rw [hwnone] at hw
        cases hw
      · have hbi : bi ≠ i := fun hx => hib hx.symm
        rw [getD_set_ne _ _ hbi]
        exact hw

/-- A move into a mini-board whose meta-cell is decided is rejected. -/
theorem makeUltimateMove_rejects_decided (ub : UltimateBoard) (bi ci : Nat)
    (p : Player) (hw : ub.winners.getD bi none ≠ none) :
    (makeUltimateMove ub bi ci p).validMove = false := by
  simp only [makeUltimateMove]
  rw [if_pos (Or.inr (Or.inl hw))]

/-- C7: in every state reachable from `initializeUltimateBoard` by
`makeUltimateMove` steps, a non-null meta-board cell certifies that its
mini-board is terminal under the 3x3 rule; a non-null meta-cell is never
changed by any later step; and a mini-board with a decided meta-cell
accepts no further moves. -/
theorem ultimate_meta_board_invariant (ub : UltimateBoard) (h : UReachable ub) :
    (∀ i w, ub.winners.getD i none = some w →
      (checkWinner (ub.boards.getD i []) .x33).winner ≠ none) ∧
    (∀ bi ci p i w, ub.winners.getD i none = some w →
      ((makeUltimateMove ub bi ci p).newBoard).winners.getD i none = some w) ∧
    (∀ bi ci p, ub.winners.getD bi none ≠ none →
      (makeUltimateMove ub bi ci p).validMove = false) :=
  ⟨(ureachable_uinv ub h).terminalOnly,
   fun bi ci p i w hw => makeUltimateMove_winners_frozen ub bi ci p i w hw,
   fun bi ci p hw => makeUltimateMove_rejects_decided ub bi ci p hw⟩

/-- A concrete reachable nested-variant state: five accepted moves whose
last wins mini-board 0 for X (cells 0, 4, 8). -/
def c7state : UltimateBoard :=
  (makeUltimateMove (makeUltimateMove (makeUltimateMove (makeUltimateMove
    (makeUltimateMove initializeUltimateBoard 0 0 .X).newBoard 0 4 .X).newBoard
    4 1 .X).newBoard 1 0 .X).newBoard 0 8 .X).newBoard

/-- Witness for C7: in the reachable state `c7state` the decided meta-cell 0
certifies a terminal mini-board 0. -/
theorem ultimate_meta_board_invariant_witness :
    (checkWinner (c7state.boards.getD 0 []) .x33).winner ≠ none :=
  (ultimate_meta_board_invariant c7state
    (UReachable.step _ 0 8 .X
      (UReachable.step _ 1 0 .X
        (UReachable.step _ 4 1 .X
          (UReachable.step _ 0 4 .X
            (UReachable.step _ 0 0 .X UReachable.init (by decide))
            (by decide))
          (by decide))
        (by decide))
      (by decide))).1 0 (.mark .X) (by decide)

namespace Server

/-- The three validation checks of the `make_move` handler, in the order the
claim lists them: the requester is bound to a room holding a slot for it,
the requester's recorded mark is the active mark, and the cell index is in
range with that cell empty. -/
def MakeMoveOk (s : ServerState) (sid : String) (position : Int) : Prop :=
  ∃ roomCode room player,
    lookup s.playerToRoom sid = some roomCode ∧
    lookup s.rooms roomCode = some room ∧
    room.players.find? (fun p => p.id == sid) = some player ∧
    room.currentTurn = player.symbol ∧
    0 ≤ position ∧ position < 9 ∧ cellAt room.board position.toNat = none

/-- On a fully validated move the handler stores the requester's recorded
mark, flips the turn, and broadcasts the updated board and turn to the room
(and the result when the move is terminal). -/
theorem makeMove_success_eq (s : ServerState) (sid : String) (position : Int)
    (symbol : Option Player) (payloadBoard : Board) (now : Nat)
    (roomCode : String) (room : Room) (player : PlayerSlot)
    (h1 : lookup s.playerToRoom sid = some roomCode)
    (h2 : lookup s.rooms roomCode = some room)
    (h3 : room.players.find? (fun p => p.id == sid) = some player)
    (h4 : room.currentTurn = player.symbol)
    (h5 : 0 ≤ position) (h6 : position < 9)
    (h7 : cellAt room.board position.toNat = none) :
    makeMove s sid position symbol payloadBoard now =
      ({ s with
          rooms := setKey s.rooms roomCode
            { room with
              board := room.board.set position.toNat (some player.symbol)
              currentTurn := player.symbol.other
              lastMoveTime := some now } },
       Emit.toRoom roomCode (.moveMade position player.symbol
          (room.board.set position.toNat (some player.symbol)) player.symbol.other) ::
        (match serverWinner (room.board.set position.toNat (some player.symbol)) with
         | some w => [Emit.toRoom roomCode (.gameOver w)]
         | none => [])) := by
  simp only [makeMove, h1, h2, h3]
  rw [if_neg (by simp [h4]), if_pos ⟨h5, h6, h7⟩]
  cases serverWinner (room.board.set position.toNat (some player.symbol)) <;> rfl

/-- On any failed check the handler leaves the state unchanged and reports
an error to the requesting socket only. -/
theorem makeMove_failure_eq (s : ServerState) (sid : String) (position : Int)
    (symbol : Option Player) (payloadBoard : Board) (now : Nat)
    (h : ¬ MakeMoveOk s sid position) :
    (makeMove s sid position symbol payloadBoard now).1 = s ∧
    ∃ msg, (makeMove s sid position symbol payloadBoard now).2 =
      [Emit.toSocket sid (.error msg)] := by
  cases h1 : lookup s.playerToRoom sid with
  | none => exact ⟨by simp [makeMove, h1], "Not in any room", by simp [makeMove, h1]⟩
  | some roomCode =>
    cases h2 : lookup s.rooms roomCode with
    | none => exact ⟨by simp [makeMove, h1, h2], "Room not found", by simp [makeMove, h1, h2]⟩
    | some room =>
      cases h3 : room.players.find? (fun p => p.id == sid) with
      | none =>
        exact ⟨by simp [makeMove, h1, h2, h3], "Player not found in room",
          by simp [makeMove, h1, h2, h3]⟩
      | some player =>
        by_cases h4 : room.currentTurn = player.symbol
        · by_cases h5 : 0 ≤ position ∧ position < 9 ∧ cellAt room.board position.toNat = none
          · exact absurd ⟨roomCode, room, player, h1, h2, h3, h4, h5.1, h5.2.1, h5.2.2⟩ h
          · have heq : makeMove s sid position symbol payloadBoard now =
                (s, [Emit.toSocket sid (.error "Invalid move")]) := by
              simp only [makeMove, h1, h2, h3]
              rw [if_neg (not_not_intro h4), if_neg h5]
            exact ⟨by rw [heq], "Invalid move", by rw [heq]⟩
        · have heq : makeMove s sid position symbol payloadBoard now =
              (s, [Emit.toSocket sid (.error "Not your turn")]) := by
            simp only [makeMove, h1, h2, h3]
            rw [if_pos h4]
          exact ⟨by rw [heq], "Not your turn", by rw [heq]⟩

/-- C2: the `make_move` handler applies a move iff the requester is bound to
a room, holds the active mark, and targets an in-range empty cell, checking
in that order; on success it stores the requester's recorded mark, flips the
turn, and broadcasts board and new turn to the room (`io.to(roomCode)`, both
participants), plus a separate `game_over` when terminal; on any failed
check the state is unchanged and an error goes to the requester only. -/
theorem makeMove_validates_then_applies (s : ServerState) (sid : String)
    (position : Int) (symbol : Option Player) (payloadBoard : Board) (now : Nat) :
    (∀ roomCode room player,
      lookup s.playerToRoom sid = some roomCode →
      lookup s.rooms roomCode = some room →
      room.players.find? (fun p => p.id == sid) = some player →
      room.currentTurn = player.symbol →
      0 ≤ position → position < 9 → cellAt room.board position.toNat = none →
      makeMove s sid position symbol payloadBoard now =
        ({ s with
            rooms := setKey s.rooms roomCode
              { room with
                board := room.board.set position.toNat (some player.symbol)
                currentTurn := player.symbol.other
                lastMoveTime := some now } },
         Emit.toRoom roomCode (.moveMade position player.symbol
            (room.board.set position.toNat (some player.symbol)) player.symbol.other) ::
          (match serverWinner (room.board.set position.toNat (some player.symbol)) with
           | some w => [Emit.toRoom roomCode (.gameOver w)]
           | none => []))) ∧
    (¬ MakeMoveOk s sid position →
      (makeMove s sid position symbol payloadBoard now).1 = s ∧
      ∃ msg, (makeMove s sid position symbol payloadBoard now).2 =
        [Emit.toSocket sid (.error msg)]) ∧
    (lookup s.playerToRoom sid = none →
      makeMove s sid position symbol payloadBoard now =
        (s, [Emit.toSocket sid (.error "Not in any room")])) ∧
    (∀ roomCode room player,
      lookup s.playerToRoom sid = some roomCode →
      lookup s.rooms roomCode = some room →
      room.players.find? (fun p => p.id == sid) = some player →
      room.currentTurn ≠ player.symbol →
      makeMove s sid position symbol payloadBoard now =
        (s, [Emit.toSocket sid (.error "Not your turn")])) := by
  refine ⟨?_, makeMove_failure_eq s sid position symbol payloadBoard now, ?_, ?_⟩
  · intro roomCode room player h1 h2 h3 h4 h5 h6 h7
    exact makeMove_success_eq s sid position symbol payloadBoard now
      roomCode room player h1 h2 h3 h4 h5 h6 h7
  · intro h1
    simp [makeMove, h1]
  · intro roomCode room player h1 h2 h3 h4
    simp only [makeMove, h1, h2, h3, if_pos h4]

/-- C10: the handler ignores the client-supplied `symbol` and `board`
payload fields entirely, and the `move_made` broadcast carries the server's
recorded mark for the socket and the server's own board. -/
theorem makeMove_ignores_client_payload (s : ServerState) (sid : String)
    (position : Int) (sym1 sym2 : Option Player) (b1 b2 : Board) (now : Nat) :
    makeMove s sid position sym1 b1 now = makeMove s sid position sym2 b2 now ∧
    (∀ roomCode room player,
      lookup s.playerToRoom sid = some roomCode →
      lookup s.rooms roomCode = some room →
      room.players.find? (fun p => p.id == sid) = some player →
      room.currentTurn = player.symbol →
      0 ≤ position → position < 9 → cellAt room.board position.toNat = none →
      (makeMove s sid position sym1 b1 now).2.head? =
        some (Emit.toRoom roomCode (.moveMade position player.symbol
          (room.board.set position.toNat (some player.symbol)) player.symbol.other))) := by
  refine ⟨rfl, ?_⟩
  intro roomCode room player h1 h2 h3 h4 h5 h6 h7
  rw [makeMove_success_eq s sid position sym1 b1 now roomCode room player h1 h2 h3 h4 h5 h6 h7]
  rfl

end Server

/-- A waiting room: one bound participant "A" with mark X. -/
def c8Room : Server.Room :=
  { players := [{ id := "A", symbol := .X }]
    currentTurn := .X
    board := List.replicate 9 none
    lastMoveTime := none }

/-- A server holding only the waiting room "ABCDEF". -/
def c8State : Server.ServerState :=
  { rooms := [("ABCDEF", c8Room)], playerToRoom := [("A", "ABCDEF")] }

/-- Counterexample to C8: participant "A" is already bound to room "ABCDEF"
(its only participant), yet a `join_room` by "A" does not rebind — the
handler's already-in-room check runs only when the room holds two slots, so
the join appends a second slot for the same socket with the opposite mark,
changing the participant list. -/
theorem joinRoom_self_join_adds_slot :
    (Server.lookup (Server.joinRoom c8State "A" (some "ABCDEF") (fun _ => true)).1.rooms
        "ABCDEF").map (fun r => r.players) =
      some [{ id := "A", symbol := .X }, { id := "A", symbol := .O }] := by
  decide

/-- C8 as amended: when the target room's participant list already has two
(or more) entries and the requester is among them, `join_room` rebinds the
connection — it re-sends `game_start` with the requester's existing mark, to
the requester only, and leaves the server state (in particular the
participant list) unchanged.  With fewer than two entries the already-bound
check is skipped and a self-join appends a fresh slot instead. -/
theorem joinRoom_rebinds_when_full (s : Server.ServerState) (sid : String)
    (roomCode : String) (room : Server.Room) (live : String → Bool)
    (h1 : Server.lookup s.rooms roomCode = some room)
    (h2 : 2 ≤ room.players.length)
    (h3 : room.players.any (fun p => p.id == sid) = true) :
    ∃ playerInfo, room.players.find? (fun p => p.id == sid) = some playerInfo ∧
      Server.joinRoom s sid (some roomCode) live =
        (s, [Server.Emit.toSocket sid (.gameStart roomCode (playerInfo.symbol == .X)
          playerInfo.symbol room.currentTurn room.players)]) := by
  have hsome : (room.players.find? (fun p => p.id == sid)).isSome := by
    rw [List.find?_isSome]
    simpa using List.any_eq_true.mp h3
  obtain ⟨playerInfo, hfind⟩ := Option.isSome_iff_exists.mp hsome
  refine ⟨playerInfo, hfind, ?_⟩
  simp only [Server.joinRoom, h1]
  rw [if_pos h2, h3]
  simp only [if_true, hfind]

/-- A playing room: "A" holds X, "B" holds O. -/
def c8FullRoom : Server.Room :=
  { players := [{ id := "A", symbol := .X }, { id := "B", symbol := .O }]
    currentTurn := .X
    board := List.replicate 9 none
    lastMoveTime := none }

/-- A server holding only the playing room "ROOM01". -/
def c8FullState : Server.ServerState :=
  { rooms := [("ROOM01", c8FullRoom)]
    playerToRoom := [("A", "ROOM01"), ("B", "ROOM01")] }

/-- Witness for the amended C8: a repeat join by "B" on the playing room
rebinds with mark O and changes nothing. -/
theorem joinRoom_rebinds_when_full_witness :
    ∃ playerInfo, c8FullRoom.players.find? (fun p => p.id == "B") = some playerInfo ∧
      Server.joinRoom c8FullState "B" (some "ROOM01") (fun _ => true) =
        (c8FullState, [Server.Emit.toSocket "B" (.gameStart "ROOM01"
          (playerInfo.symbol == .X) playerInfo.symbol c8FullRoom.currentTurn
          c8FullRoom.players)]) :=
  joinRoom_rebinds_when_full c8FullState "B" "ROOM01" c8FullRoom (fun _ => true)
    (by decide) (by decide) (by decide)

/-! ## Properties of the move-selection helpers -/

theorem availableMovesAux_mem (l : List (Option Player)) (start m : Nat) :
    m ∈ availableMovesAux l start ↔
      ∃ j, j < l.length ∧ l.getD j none = none ∧ m = start + j := by
  induction l generalizing start with
  | nil => simp [availableMovesAux]
  | cons a tl ih =>
    cases a with
    | none =>
      simp only [availableMovesAux, List.mem_cons, ih]
      constructor
      · rintro (rfl | ⟨j, hj, hcell, rfl⟩)
        · exact ⟨0, by simp, by simp [List.getD], by simp⟩
        · exact ⟨j + 1, by simpa using hj, by simpa using hcell, by omega⟩
      · rintro ⟨j, hj, hcell, rfl⟩
        cases j with
        | zero => left; omega
        | succ k =>
          right
          exact ⟨k, by simpa using hj, by simpa using hcell, by omega⟩
    | some p =>
      simp only [availableMovesAux, ih]
      constructor
      · rintro ⟨j, hj, hcell, rfl⟩
        exact ⟨j + 1, by simpa using hj, by simpa using hcell, by omega⟩
      · rintro ⟨j, hj, hcell, rfl⟩
        cases j with
        | zero => simp [List.getD] at hcell
        | succ k =>
          exact ⟨k, by simpa using hj, by simpa using hcell, by omega⟩

theorem availableMoves_mem (board : Board) (m : Nat) :
    m ∈ availableMoves board ↔ m < board.length ∧ board.getD m none = none := by
  rw [availableMoves, availableMovesAux_mem]
  constructor
  · rintro ⟨j, hj, hcell, rfl⟩
    exact ⟨by simpa using hj, by simpa using hcell⟩
  · rintro ⟨hm, hcell⟩
    exact ⟨m, hm, hcell, by omega⟩

theorem availableMoves_eq_nil_iff (board : Board) :
    availableMoves board = [] ↔ ∀ cell ∈ board, cell ≠ none := by
  constructor
  · intro h cell hcell hnone
    subst hnone
    obtain ⟨j, hj, hcell⟩ := List.mem_iff_getElem.mp hcell
    have : j ∈ availableMoves board := by
      rw [availableMoves_mem]
      refine ⟨hj, ?_⟩
      rw [List.getD_eq_getElem?_getD, List.getElem?_eq_getElem hj, hcell]
      rfl
    rw [h] at this
    cases this
  · intro h
    cases hav : availableMoves board with
    | nil => rfl
    | cons m rest =>
      have hm : m ∈ availableMoves board := by rw [hav]; exact List.mem_cons_self m rest
      rw [availableMoves_mem] at hm
      obtain ⟨hlt, hcell⟩ := hm
      rw [List.getD_eq_getElem?_getD, List.getElem?_eq_getElem hlt] at hcell
      have : board[m] ∈ board := List.getElem_mem hlt
      have hne := h _ this
      simp only [Option.getD] at hcell
      exact absurd (by simpa using hcell) hne

theorem getD_mem_of_lt (l : List Nat) (idx : Nat) (h : idx < l.length) :
    l.getD idx 0 ∈ l := by
  rw [List.getD_eq_getElem?_getD, List.getElem?_eq_getElem h]
  exact List.getElem_mem h

theorem floor_rand_lt {r : ℚ} (h0 : 0 ≤ r) (h1 : r < 1) {n : Nat} (hn : 0 < n) :
    (⌊r * (n : ℚ)⌋).toNat < n := by
  have hcast : (0 : ℚ) < (n : ℚ) := by exact_mod_cast hn
  have hlt : r * (n : ℚ) < (n : ℚ) := by
    calc r * (n : ℚ) < 1 * (n : ℚ) := by exact mul_lt_mul_of_pos_right h1 hcast
    _ = (n : ℚ) := one_mul _
  have hfl : ⌊r * (n : ℚ)⌋ < (n : Int) := by
    rw [Int.floor_lt]
    exact_mod_cast hlt
  have : (0 : Int) ≤ ⌊r * (n : ℚ)⌋ := Int.floor_nonneg.mpr (by positivity)
  omega

theorem tryWinBlock_mem (board : Board) (boardSize : BoardSize) (moves : List Nat)
    (m : Nat) (h : tryWinBlock board boardSize moves = some m) : m ∈ moves := by
  induction moves with
  | nil => simp [tryWinBlock] at h
  | cons mv rest ih =>
    simp only [tryWinBlock] at h
    split at h
    · injection h with h
      exact h ▸ List.mem_cons_self mv rest
    · split at h
      · injection h with h
        exact h ▸ List.mem_cons_self mv rest
      · exact List.mem_cons.mpr (Or.inr (ih h))

theorem bestMoveLoop_mem (board : Board) (boardSize : BoardSize)
    (moves : List Nat) (bestScore : JNum) (best : Int) :
    bestMoveLoop board boardSize moves bestScore best = best ∨
      ∃ m ∈ moves, bestMoveLoop board boardSize moves bestScore best = (m : Int) := by
  induction moves generalizing bestScore best with
  | nil => left; rfl
  | cons mv rest ih =>
    simp only [bestMoveLoop]
    split
    · rcases ih (minimax (board.length + 1) (board.set mv (some Player.O)) 0 false
        JNum.negInf JNum.posInf boardSize) (mv : Int) with h | ⟨m, hm, h⟩
      · right
        exact ⟨mv, List.mem_cons_self mv rest, h⟩
      · right
        exact ⟨m, List.mem_cons.mpr (Or.inr hm), h⟩
    · rcases ih bestScore best with h | ⟨m, hm, h⟩
      · left; exact h
      · right
        exact ⟨m, List.mem_cons.mpr (Or.inr hm), h⟩

theorem headD_mem (l : List Nat) (h : l ≠ []) : l.headD 0 ∈ l := by
  cases l with
  | nil => exact absurd rfl h
  | cons a tl => exact List.mem_cons_self a tl

/-- C9: for every board of the configured size and every difficulty,
`getAIMove` returns -1 iff the board has no empty cell; otherwise it returns
the index of an empty cell (for any values of the `Math.random()` draws,
which lie in `[0, 1)`). -/
theorem getAIMove_returns_legal_cell (board : Board) (difficulty : Difficulty)
    (boardSize : BoardSize) (rand : Nat → ℚ)
    (hlen : board.length = boardLen boardSize)
    (hrand : ∀ n, 0 ≤ rand n ∧ rand n < 1) :
    (getAIMove board difficulty boardSize rand = -1 ↔ ∀ cell ∈ board, cell ≠ none) ∧
    ((∃ cell ∈ board, cell = none) →
      ∃ i : Nat, getAIMove board difficulty boardSize rand = (i : Int) ∧
        i < board.length ∧ board.getD i none = none) := by
  by_cases hav : availableMoves board = []
  · have hall : ∀ cell ∈ board, cell ≠ none := (availableMoves_eq_nil_iff board).mp hav
    have hm1 : getAIMove board difficulty boardSize rand = -1 := by
      simp only [getAIMove]
      rw [if_pos (by rw [hav]; rfl)]
    refine ⟨⟨fun _ => hall, fun _ => hm1⟩, ?_⟩
    rintro ⟨cell, hcell, rfl⟩
    exact absurd rfl (hall _ hcell)
  · have hlen0 : 0 < (availableMoves board).length := List.length_pos.mpr hav
    have hlenne : ¬((availableMoves board).length = 0) := by omega
    have fromMem : ∀ i : Nat, i ∈ availableMoves board →
        i < board.length ∧ board.getD i none = none :=
      fun i h => (availableMoves_mem board i).mp h
    have hidx0 := floor_rand_lt (hrand 0).1 (hrand 0).2 hlen0
    have hidx1 := floor_rand_lt (hrand 1).1 (hrand 1).2 hlen0
    have hcenterlt : (if boardSize = .x33 then 4 else if boardSize = .x44 then 5
        else if boardSize = .x55 then 12 else 4) < board.length := by
      rw [hlen]
      cases boardSize <;> simp [boardLen]
    have key : ∃ i : Nat, getAIMove board difficulty boardSize rand = (i : Int) ∧
        i < board.length ∧ board.getD i none = none := by
      cases difficulty with
      | easy =>
        refine ⟨(availableMoves board).getD
          (⌊rand 0 * ((availableMoves board).length : ℚ)⌋).toNat 0, ?_,
          fromMem _ (getD_mem_of_lt _ _ hidx0)⟩
        simp [getAIMove, hlenne]
      | medium =>
        by_cases hr : 7/10 < rand 0
        · refine ⟨(availableMoves board).getD
            (⌊rand 1 * ((availableMoves board).length : ℚ)⌋).toNat 0, ?_,
            fromMem _ (getD_mem_of_lt _ _ hidx1)⟩
          simp [getAIMove, hlenne, hr]
        · cases htw : tryWinBlock board boardSize (availableMoves board) with
          | some m =>
            refine ⟨m, ?_, fromMem _ (tryWinBlock_mem _ _ _ _ htw)⟩
            simp [getAIMove, hlenne, hr, htw]
          | none =>
            by_cases hc : cellAt board (if boardSize = .x33 then 4
                else if boardSize = .x44 then 5
                else if boardSize = .x55 then 12 else 4) = none
            · refine ⟨_, ?_, hcenterlt, hc⟩
              simp [getAIMove, hlenne, hr, htw, hc]
            · refine ⟨(availableMoves board).getD
                (⌊rand 1 * ((availableMoves board).length : ℚ)⌋).toNat 0, ?_,
                fromMem _ (getD_mem_of_lt _ _ hidx1)⟩
              simp [getAIMove, hlenne, hr, htw, hc]
      | hard =>
        cases htw : tryWinBlock board boardSize (availableMoves board) with
        | some m =>
          refine ⟨m, ?_, fromMem _ (tryWinBlock_mem _ _ _ _ htw)⟩
          simp [getAIMove, hlenne, htw]
        | none =>
          by_cases hr8 : rand 0 < 8/10
          · have hform : getAIMove board .hard boardSize rand =
                bestMoveLoop board boardSize (availableMoves board) JNum.negInf
                  (((availableMoves board).headD 0 : Nat) : Int) := by
              simp [getAIMove, hlenne, htw, hr8]
            rcases bestMoveLoop_mem board boardSize (availableMoves board)
              JNum.negInf (((availableMoves board).headD 0 : Nat) : Int) with
              hb | ⟨m, hm, hb⟩
            · exact ⟨(availableMoves board).headD 0, by rw [hform, hb],
                fromMem _ (headD_mem _ hav)⟩
            · exact ⟨m, by rw [hform, hb], fromMem _ hm⟩
          · by_cases hc : cellAt board (if boardSize = .x33 then 4
                else if boardSize = .x44 then 5
                else if boardSize = .x55 then 12 else 4) = none
            · refine ⟨_, ?_, hcenterlt, hc⟩
              simp [getAIMove, hlenne, htw, hr8, hc]
            · refine ⟨(availableMoves board).getD
                (⌊rand 1 * ((availableMoves board).length : ℚ)⌋).toNat 0, ?_,
                fromMem _ (getD_mem_of_lt _ _ hidx1)⟩
              simp [getAIMove, hlenne, htw, hr8, hc]
      | god =>
        cases htw : tryWinBlock board boardSize (availableMoves board) with
        | some m =>
          refine ⟨m, ?_, fromMem _ (tryWinBlock_mem _ _ _ _ htw)⟩
          simp [getAIMove, hlenne, htw]
        | none =>
          have hform : getAIMove board .god boardSize rand =
              bestMoveLoop board boardSize (availableMoves board) JNum.negInf
                (((availableMoves board).headD 0 : Nat) : Int) := by
            simp [getAIMove, hlenne, htw]
          rcases bestMoveLoop_mem board boardSize (availableMoves board)
            JNum.negInf (((availableMoves board).headD 0 : Nat) : Int) with
            hb | ⟨m, hm, hb⟩
          · exact ⟨(availableMoves board).headD 0, by rw [hform, hb],
              fromMem _ (headD_mem _ hav)⟩
          · exact ⟨m, by rw [hform, hb], fromMem _ hm⟩
    obtain ⟨i, heq, hi, hcell⟩ := key
    refine ⟨⟨fun hmone => ?_, fun hall => ?_⟩, fun _ => ⟨i, heq, hi, hcell⟩⟩
    · rw [heq] at hmone
      exact absurd hmone (by omega)
    · exfalso
      have hne : board.getD i none ≠ none := by
        rw [List.getD_eq_getElem?_getD, List.getElem?_eq_getElem hi]
        have := hall board[i] (List.getElem_mem hi)
        simpa using this
      exact hne hcell

/-- Witness for C9: on the empty 3x3 board at god tier the move is legal. -/
theorem getAIMove_returns_legal_cell_witness :
    (getAIMove emptyBoard3 .god .x33 (fun _ => 0) = -1 ↔
      ∀ cell ∈ emptyBoard3, cell ≠ none) ∧
    ((∃ cell ∈ emptyBoard3, cell = none) →
      ∃ i : Nat, getAIMove emptyBoard3 .god .x33 (fun _ => 0) = (i : Int) ∧
        i < emptyBoard3.length ∧ emptyBoard3.getD i none = none) :=
  getAIMove_returns_legal_cell emptyBoard3 .god .x33 (fun _ => 0) (by decide)
    (fun _ => by norm_num)

/-- Counterexample to C6: on the board `X X . / O O . / . . .` with O to
move, placing O at cell 5 wins immediately, yet at god tier (and identically
at hard tier, which shares the fast path and draws no random number on this
path) `getAIMove` returns cell 2 — a block, because the per-cell scan tests
cell 2 (where X would win) before it ever tries O at cell 5.  Placing O at
the returned cell 2 does not win. -/
theorem getAIMove_block_shadows_win :
    (checkWinner ([some Player.X, some Player.X, none, some Player.O, some Player.O,
        none, none, none, none].set 5 (some Player.O)) .x33).winner =
      some (.mark .O) ∧
    getAIMove [some Player.X, some Player.X, none, some Player.O, some Player.O,
      none, none, none, none] .god .x33 (fun _ => 0) = 2 ∧
    getAIMove [some Player.X, some Player.X, none, some Player.O, some Player.O,
      none, none, none, none] .hard .x33 (fun _ => 0) = 2 ∧
    (checkWinner ([some Player.X, some Player.X, none, some Player.O, some Player.O,
        none, none, none, none].set 2 (some Player.O)) .x33).winner ≠
      some (.mark .O) := by
  refine ⟨by decide, by decide, by decide, by decide⟩

theorem tryWinBlock_hits_first (board : Board) (boardSize : BoardSize)
    (pre post : List Nat) (m : Nat)
    (hpre : ∀ m' ∈ pre,
      (checkWinner (board.set m' (some Player.O)) boardSize).winner ≠ some (.mark .O) ∧
      (checkWinner (board.set m' (some Player.X)) boardSize).winner ≠ some (.mark .X))
    (hm : (checkWinner (board.set m (some Player.O)) boardSize).winner = some (.mark .O) ∨
      (checkWinner (board.set m (some Player.X)) boardSize).winner = some (.mark .X)) :
    tryWinBlock board boardSize (pre ++ m :: post) = some m := by
  induction pre with
  | nil =>
    simp only [List.nil_append, tryWinBlock]
    rcases hm with hm | hm
    · rw [if_pos hm]
    · by_cases hw : (checkWinner (board.set m (some Player.O)) boardSize).winner =
          some (.mark .O)
      · rw [if_pos hw]
      · rw [if_neg hw, if_pos hm]
  | cons a pre ih =>
    have ha := hpre a (List.mem_cons_self a pre)
    simp only [List.cons_append, tryWinBlock]
    rw [if_neg ha.1, if_neg ha.2]
    exact ih fun m' hm' => hpre m' (List.mem_cons.mpr (Or.inr hm'))

/-- C6 as amended: at hard and god tiers the fast path scans the empty cells
in ascending index order testing, at each cell, first an immediate computer
win and then an immediate human win (a block); it returns the first cell
passing either test.  Hence the returned cell wins immediately whenever some
empty cell completes a computer win and no empty cell with a smaller index
completes a human win; a lower-indexed blocking cell shadows a win. -/
theorem getAIMove_first_win_or_block (board : Board) (boardSize : BoardSize)
    (rand : Nat → ℚ) (difficulty : Difficulty)
    (hd : difficulty = .hard ∨ difficulty = .god)
    (pre post : List Nat) (m : Nat)
    (havail : availableMoves board = pre ++ m :: post)
    (hpre : ∀ m' ∈ pre,
      (checkWinner (board.set m' (some Player.O)) boardSize).winner ≠ some (.mark .O) ∧
      (checkWinner (board.set m' (some Player.X)) boardSize).winner ≠ some (.mark .X))
    (hm : (checkWinner (board.set m (some Player.O)) boardSize).winner = some (.mark .O) ∨
      (checkWinner (board.set m (some Player.X)) boardSize).winner = some (.mark .X)) :
    getAIMove board difficulty boardSize rand = (m : Int) := by
  have htw : tryWinBlock board boardSize (availableMoves board) = some m := by
    rw [havail]
    exact tryWinBlock_hits_first board boardSize pre post m hpre hm
  have hlenne : ¬((availableMoves board).length = 0) := by
    rw [havail]
    simp
  rcases hd with rfl | rfl
  · simp [getAIMove, hlenne, htw]
  · simp [getAIMove, hlenne, htw]

/-- Witness for the amended C6: on the counterexample board the first
win-or-block cell is 2 (a block), and god returns it. -/
theorem getAIMove_first_win_or_block_witness :
    getAIMove [some Player.X, some Player.X, none, some Player.O, some Player.O,
      none, none, none, none] .god .x33 (fun _ => 0) = ((2 : Nat) : Int) :=
  getAIMove_first_win_or_block
    [some Player.X, some Player.X, none, some Player.O, some Player.O,
      none, none, none, none] .x33 (fun _ => 0) .god (Or.inr rfl)
    [] [5, 6, 7, 8] 2 (by decide) (by decide) (Or.inr (by decide))

/-! ## The eviction-variant game and its invariant -/

/-- One eviction-variant game state: the board, the move history, and the
next move's timestamp (`Date.now()` is strictly increasing across moves). -/
structure InfState where
  board : Board
  history : List MoveInfo
  clock : Nat
deriving DecidableEq, Repr

/-- The start of an eviction-variant game: empty board, empty history. -/
def infStart : InfState := ⟨List.replicate 9 none, [], 0⟩

/-- One accepted move processed through `processInfinityMove`. -/
def infStep (st : InfState) (p : Player) (i : Nat) : InfState :=
  let r := processInfinityMove st.board i p st.history st.clock
  ⟨r.board, r.moveHistory, st.clock + 1⟩

/-- Run a sequence of moves. -/
def runMoves : InfState → List (Player × Nat) → InfState
  | st, [] => st
  | st, (p, i) :: rest => runMoves (infStep st p i) rest

/-- A sequence of accepted moves: players alternate starting with `turn`,
and every move targets an in-range empty cell of the current board. -/
def validFrom : Player → InfState → List (Player × Nat) → Bool
  | _, _, [] => true
  | turn, st, (p, i) :: rest =>
    p == turn && decide (i < 9) && (cellAt st.board i == none) &&
      validFrom turn.other (infStep st p i) rest

theorem insertByTimestamp_of_ge (l : List MoveInfo) (m : MoveInfo)
    (h : ∀ n ∈ l, ¬ m.timestamp < n.timestamp) :
    insertByTimestamp l m = l ++ [m] := by
  induction l with
  | nil => rfl
  | cons a t ih =>
    simp only [insertByTimestamp]
    rw [if_neg (h a (List.mem_cons_self a t))]
    rw [ih fun n hn => h n (List.mem_cons.mpr (Or.inr hn))]
    rfl

theorem foldl_insertByTimestamp_sorted (l acc : List MoveInfo)
    (hl : l.Pairwise (fun a b => a.timestamp < b.timestamp))
    (hcross : ∀ a ∈ acc, ∀ b ∈ l, a.timestamp < b.timestamp) :
    l.foldl insertByTimestamp acc = acc ++ l := by
  induction l generalizing acc with
  | nil => simp
  | cons m rest ih =>
    rw [List.pairwise_cons] at hl
    have hins : insertByTimestamp acc m = acc ++ [m] :=
      insertByTimestamp_of_ge acc m fun n hn =>
        Nat.not_lt.mpr (Nat.le_of_lt (hcross n hn m (List.mem_cons_self m rest)))
    simp only [List.foldl_cons, hins]
    rw [ih (acc ++ [m]) hl.2]
    · simp
    · intro a ha b hb
      rcases List.mem_append.mp ha with ha | ha
      · exact hcross a ha b (List.mem_cons.mpr (Or.inr hb))
      · rw [List.mem_singleton.mp ha]
        exact hl.1 b hb

theorem sortByTimestamp_eq_self (l : List MoveInfo)
    (h : l.Pairwise (fun a b => a.timestamp < b.timestamp)) :
    sortByTimestamp l = l := by
  rw [sortByTimestamp, foldl_insertByTimestamp_sorted l [] h (by simp)]
  rfl

theorem pairwise_index_unique (l : List MoveInfo)
    (h : l.Pairwise (fun a b => a.index ≠ b.index))
    {m m' : MoveInfo} (hm : m ∈ l) (hm' : m' ∈ l) (heq : m.index = m'.index) :
    m = m' := by
  induction l with
  | nil => cases hm
  | cons a t ih =>
    rw [List.pairwise_cons] at h
    rcases List.mem_cons.mp hm with h1 | h1
    · rcases List.mem_cons.mp hm' with h2 | h2
      · rw [h1, h2]
      · subst h1
        exact absurd heq (h.1 m' h2)
    · rcases List.mem_cons.mp hm' with h2 | h2
      · subst h2
        exact absurd heq.symm (h.1 m h1)
      · exact ih h.2 h1 h2

theorem cellAt_eq_getElem (b : Board) (i : Nat) (h : i < b.length) :
    cellAt b i = b[i] := by
  rw [cellAt, List.getD_eq_getElem?_getD, List.getElem?_eq_getElem h]
  rfl

theorem processInfinityMove_no_evict (board : Board) (i : Nat) (p : Player)
    (H : List MoveInfo) (now : Nat)
    (hle : ((H ++ [MoveInfo.mk p i now]).filter (fun m => m.player == p)).length ≤ 3) :
    processInfinityMove board i p H now =
      { board := board.set i (some p)
        moveHistory := H ++ [⟨p, i, now⟩]
        fadingSymbols := []
        nextFadingSymbols := nextFadingFor (H ++ [MoveInfo.mk p i now]) p.other } := by
  simp only [processInfinityMove]
  rw [if_neg (by omega)]

theorem processInfinityMove_evict (board : Board) (i : Nat) (p : Player)
    (H : List MoveInfo) (now : Nat) (m0 : MoveInfo) (t : List MoveInfo)
    (hgt : 3 < ((H ++ [MoveInfo.mk p i now]).filter (fun m => m.player == p)).length)
    (hsort : sortByTimestamp ((H ++ [MoveInfo.mk p i now]).filter (fun m => m.player == p)) =
      m0 :: t) :
    processInfinityMove board i p H now =
      { board := (board.set i (some p)).set m0.index none
        moveHistory := (H ++ [MoveInfo.mk p i now]).filter
          (fun m => !(m.index == m0.index && m.player == p))
        fadingSymbols := [m0.index]
        nextFadingSymbols := nextFadingFor ((H ++ [MoveInfo.mk p i now]).filter
          (fun m => !(m.index == m0.index && m.player == p))) p.other } := by
  simp only [processInfinityMove]
  rw [if_pos hgt, hsort]

/-- The inductive invariant of an eviction-variant game state. -/
structure InfInv (st : InfState) : Prop where
  lenEq : st.board.length = 9
  tsLt : ∀ m ∈ st.history, m.timestamp < st.clock
  tsSorted : st.history.Pairwise (fun a b => a.timestamp < b.timestamp)
  idxLt : ∀ m ∈ st.history, m.index < 9
  idxDistinct : st.history.Pairwise (fun a b => a.index ≠ b.index)
  coherent : ∀ i p, cellAt st.board i = some p ↔
    ∃ m ∈ st.history, m.player = p ∧ m.index = i
  counts : ∀ p, st.board.countP (fun c => c == some p) =
    (st.history.filter (fun m => m.player == p)).length
  capped : ∀ p, (st.history.filter (fun m => m.player == p)).length ≤ 3

theorem infInv_start : InfInv infStart := by
  refine ⟨by simp [infStart], by simp [infStart], by simp [infStart],
    by simp [infStart], by simp [infStart], ?_, ?_, by simp [infStart]⟩
  · intro i p
    constructor
    · intro h
      rw [show infStart.board = List.replicate 9 none from rfl,
        cellAt, getD_replicate_self] at h
      cases h
    · rintro ⟨m, hm, -⟩
      simp [infStart] at hm
  · intro p
    cases p <;> (simp only [infStart]; decide)

theorem infStep_inv (st : InfState) (p : Player) (i : Nat) (hst : InfInv st)
    (hi : i < 9) (hcell : cellAt st.board i = none) :
    InfInv (infStep st p i) ∧
    ∀ q : Player,
      ((infStep st p i).history.filter (fun m => m.player == q)).length =
        if q = p
        then min ((st.history.filter (fun m => m.player == p)).length + 1) 3
        else (st.history.filter (fun m => m.player == q)).length := by
  have hilen : i < st.board.length := by rw [hst.lenEq]; exact hi
  have hbi : st.board[i] = none := by
    rw [← cellAt_eq_getElem st.board i hilen]
    exact hcell
  have F2 : ∀ m ∈ st.history, m.index ≠ i := by
    intro m hm hidx
    have hc := (hst.coherent i m.player).mpr ⟨m, hm, rfl, hidx⟩
    rw [hcell] at hc
    cases hc
  have hNHts : (st.history ++ [MoveInfo.mk p i st.clock]).Pairwise
      (fun a b => a.timestamp < b.timestamp) := by
    rw [List.pairwise_append]
    exact ⟨hst.tsSorted, List.pairwise_singleton _ _, fun a ha b hb => by
      rw [List.mem_singleton.mp hb]; exact hst.tsLt a ha⟩
  have hNHidx : (st.history ++ [MoveInfo.mk p i st.clock]).Pairwise
      (fun a b => a.index ≠ b.index) := by
    rw [List.pairwise_append]
    exact ⟨hst.idxDistinct, List.pairwise_singleton _ _, fun a ha b hb => by
      rw [List.mem_singleton.mp hb]; exact F2 a ha⟩
  have hNHidxLt : ∀ m ∈ st.history ++ [MoveInfo.mk p i st.clock], m.index < 9 := by
    intro m hm
    rcases List.mem_append.mp hm with hm | hm
    · exact hst.idxLt m hm
    · rw [List.mem_singleton.mp hm]; exact hi
  have hNHtsLt : ∀ m ∈ st.history ++ [MoveInfo.mk p i st.clock],
      m.timestamp < st.clock + 1 := by
    intro m hm
    rcases List.mem_append.mp hm with hm | hm
    · exact Nat.lt_succ_of_lt (hst.tsLt m hm)
    · rw [List.mem_singleton.mp hm]; exact Nat.lt_succ_self _
  have hfp : (st.history ++ [MoveInfo.mk p i st.clock]).filter
        (fun m => m.player == p) =
      st.history.filter (fun m => m.player == p) ++ [MoveInfo.mk p i st.clock] := by
    rw [List.filter_append]
    simp
  have hfq : ∀ q : Player, ¬ q = p →
      (st.history ++ [MoveInfo.mk p i st.clock]).filter (fun m => m.player == q) =
        st.history.filter (fun m => m.player == q) := by
    intro q hq
    rw [List.filter_append]
    have hpq : (p == q) = false := beq_eq_false_iff_ne.mpr fun h => hq h.symm
    simp [hpq]
  have hnewmem : MoveInfo.mk p i st.clock ∈ st.history ++ [MoveInfo.mk p i st.clock] :=
    List.mem_append.mpr (Or.inr (List.mem_singleton.mpr rfl))
  have hidx_i_unique : ∀ m ∈ st.history ++ [MoveInfo.mk p i st.clock],
      m.index = i → m = MoveInfo.mk p i st.clock := by
    intro m hm hmi
    exact pairwise_index_unique _ hNHidx hm hnewmem hmi
  by_cases hgt : 3 < ((st.history ++ [MoveInfo.mk p i st.clock]).filter
      (fun m => m.player == p)).length
  case neg =>
    have heq := processInfinityMove_no_evict st.board i p st.history st.clock (by omega)
    have hstep : infStep st p i =
        ⟨st.board.set i (some p), st.history ++ [MoveInfo.mk p i st.clock],
          st.clock + 1⟩ := by
      simp only [infStep, heq]
    rw [hstep]
    have hlen1 : ((st.history ++ [MoveInfo.mk p i st.clock]).filter
        (fun m => m.player == p)).length =
        (st.history.filter (fun m => m.player == p)).length + 1 := by
      rw [hfp, List.length_append, List.length_singleton]
    refine ⟨⟨by simp [hst.lenEq], hNHtsLt, hNHts, hNHidxLt, hNHidx, ?_, ?_, ?_⟩, ?_⟩
    · -- coherence
      intro j q
      by_cases hj : j = i
      · subst hj
        have hcj : cellAt (st.board.set j (some p)) j = some p := by
          rw [cellAt, getD_set_self _ _ hilen]
        rw [hcj]
        constructor
        · intro h
          obtain rfl : p = q := by injection h
          exact ⟨MoveInfo.mk p j st.clock, hnewmem, rfl, rfl⟩
        · rintro ⟨m, hm, hq, hidx⟩
          rcases List.mem_append.mp hm with hm | hm
          · exact absurd hidx (F2 m hm)
          · rw [List.mem_singleton.mp hm] at hq
            rw [← hq]
      · have hcj : cellAt (st.board.set i (some p)) j = cellAt st.board j := by
          rw [cellAt, getD_set_ne _ _ (fun hx => hj hx.symm)]
          rfl
        rw [hcj, hst.coherent j q]
        constructor
        · rintro ⟨m, hm, hq, hidx⟩
          exact ⟨m, List.mem_append.mpr (Or.inl hm), hq, hidx⟩
        · rintro ⟨m, hm, hq, hidx⟩
          rcases List.mem_append.mp hm with hm | hm
          · exact ⟨m, hm, hq, hidx⟩
          · rw [List.mem_singleton.mp hm] at hidx
            exact absurd hidx.symm hj
    · -- counts
      intro q
      rw [List.countP_set _ _ _ _ hilen, hbi]
      by_cases hq : q = p
      · subst hq
        rw [hfp, List.length_append, List.length_singleton, ← hst.counts q]
        simp
      · rw [hfq q hq, ← hst.counts q]
        have h1 : ((none : Option Player) == some q) = false := by simp
        have h2 : ((some p : Option Player) == some q) = false := by
          rw [beq_eq_false_iff_ne]
          intro h
          exact hq (Option.some.inj h).symm
        rw [h1, h2]
        simp
    · -- capped
      intro q
      by_cases hq : q = p
      · subst hq
        show ((st.history ++ [MoveInfo.mk q i st.clock]).filter
          (fun m => m.player == q)).length ≤ 3
        omega
      · rw [hfq q hq]
        exact hst.capped q
    · -- length recurrence
      intro q
      by_cases hq : q = p
      · subst hq
        rw [if_pos rfl, hlen1]
        omega
      · rw [if_neg hq, hfq q hq]
  case pos =>
    have hcapped := hst.capped p
    have hlen3 : (st.history.filter (fun m => m.player == p)).length = 3 := by
      rw [hfp, List.length_append, List.length_singleton] at hgt
      omega
    obtain ⟨m0, t0, hHp⟩ : ∃ m0 t0,
        st.history.filter (fun m => m.player == p) = m0 :: t0 := by
      cases hHp : st.history.filter (fun m => m.player == p) with
      | nil => rw [hHp] at hlen3; cases hlen3
      | cons a b => exact ⟨a, b, rfl⟩
    have ht0len : t0.length = 2 := by
      rw [hHp] at hlen3
      simpa using hlen3
    have hPM : (st.history ++ [MoveInfo.mk p i st.clock]).filter
        (fun m => m.player == p) = m0 :: (t0 ++ [MoveInfo.mk p i st.clock]) := by
      rw [hfp, hHp]
      rfl
    have hPMsorted := List.Pairwise.sublist (List.filter_sublist
      (p := fun m => m.player == p) (st.history ++ [MoveInfo.mk p i st.clock])) hNHts
    have hsort : sortByTimestamp ((st.history ++ [MoveInfo.mk p i st.clock]).filter
        (fun m => m.player == p)) = m0 :: (t0 ++ [MoveInfo.mk p i st.clock]) := by
      rw [sortByTimestamp_eq_self _ hPMsorted, hPM]
    have heq := processInfinityMove_evict st.board i p st.history st.clock m0
      (t0 ++ [MoveInfo.mk p i st.clock]) hgt hsort
    have hstep : infStep st p i =
        ⟨(st.board.set i (some p)).set m0.index none,
          (st.history ++ [MoveInfo.mk p i st.clock]).filter
            (fun m => !(m.index == m0.index && m.player == p)),
          st.clock + 1⟩ := by
      simp only [infStep, heq]
    rw [hstep]
    have hm0f : m0 ∈ st.history.filter (fun m => m.player == p) := by
      rw [hHp]
      exact List.mem_cons_self m0 t0
    have hm0H : m0 ∈ st.history := List.mem_of_mem_filter hm0f
    have hm0p : m0.player = p := by
      have h := List.of_mem_filter hm0f
      exact eq_of_beq h
    have hm0NH : m0 ∈ st.history ++ [MoveInfo.mk p i st.clock] :=
      List.mem_append.mpr (Or.inl hm0H)
    have hji : m0.index ≠ i := F2 m0 hm0H
    have hj9 : m0.index < 9 := hst.idxLt m0 hm0H
    have hjlen : m0.index < st.board.length := by rw [hst.lenEq]; exact hj9
    have hjlen' : m0.index < (st.board.set i (some p)).length := by simpa using hjlen
    have hcellj : cellAt st.board m0.index = some p :=
      (hst.coherent m0.index p).mpr ⟨m0, hm0H, hm0p, rfl⟩
    have hidx_j_unique : ∀ m ∈ st.history ++ [MoveInfo.mk p i st.clock],
        m.index = m0.index → m = m0 :=
      fun m hm hmi => pairwise_index_unique _ hNHidx hm hm0NH hmi
    have hpredm0 : (!(m0.index == m0.index && m0.player == p)) = false := by
      simp [hm0p]
    have hprednm : (!((MoveInfo.mk p i st.clock).index == m0.index &&
        (MoveInfo.mk p i st.clock).player == p)) = true := by
      simp only [Bool.not_eq_true']
      rw [Bool.and_eq_false_iff]
      left
      rw [beq_eq_false_iff_ne]
      exact fun h => hji h.symm
    have hfpairs : (m0 :: t0).Pairwise (fun a b => a.index ≠ b.index) := by
      have hsub : (st.history.filter (fun m => m.player == p)).Sublist st.history :=
        List.filter_sublist st.history
      have := List.Pairwise.sublist hsub hst.idxDistinct
      rw [hHp] at this
      exact this
    have ht0idx : ∀ m ∈ t0, (!(m.index == m0.index && m.player == p)) = true := by
      intro m hm
      simp only [Bool.not_eq_true']
      rw [Bool.and_eq_false_iff]
      left
      rw [beq_eq_false_iff_ne]
      exact fun h => (List.pairwise_cons.mp hfpairs).1 m hm h.symm
    have hfp' : ((st.history ++ [MoveInfo.mk p i st.clock]).filter
          (fun m => !(m.index == m0.index && m.player == p))).filter
          (fun m => m.player == p) =
        t0 ++ [MoveInfo.mk p i st.clock] := by
      rw [List.filter_filter]
      rw [List.filter_congr (fun x _ => Bool.and_comm (x.player == p)
        (!(x.index == m0.index && x.player == p)))]
      rw [← List.filter_filter, hPM]
      rw [List.filter_cons_of_neg (by simp [hm0p])]
      refine List.filter_eq_self.mpr ?_
      intro m hm
      rcases List.mem_append.mp hm with hm | hm
      · exact ht0idx m hm
      · rw [List.mem_singleton.mp hm]
        exact hprednm
    have hfilter_q' : ∀ q : Player, ¬ q = p →
        ((st.history ++ [MoveInfo.mk p i st.clock]).filter
            (fun m => !(m.index == m0.index && m.player == p))).filter
            (fun m => m.player == q) =
          st.history.filter (fun m => m.player == q) := by
      intro q hq
      rw [List.filter_filter]
      rw [List.filter_congr (fun x _ => ?_), hfq q hq]
      by_cases hxq : x.player = q
      · have h1 : (x.player == q) = true := beq_iff_eq.mpr hxq
        have h2 : (x.player == p) = false := by
          rw [beq_eq_false_iff_ne, hxq]
          exact fun h => hq h
        simp [h1, h2]
      · have h1 : (x.player == q) = false := beq_eq_false_iff_ne.mpr hxq
        simp [h1]
    refine ⟨⟨by simp [hst.lenEq], ?_, ?_, ?_, ?_, ?_, ?_, ?_⟩, ?_⟩
    · intro m hm
      exact hNHtsLt m (List.mem_of_mem_filter hm)
    · exact List.Pairwise.sublist (List.filter_sublist _) hNHts
    · intro m hm
      exact hNHidxLt m (List.mem_of_mem_filter hm)
    · exact List.Pairwise.sublist (List.filter_sublist _) hNHidx
    · -- coherence
      intro j q
      by_cases hjj : j = m0.index
      · have hcj : cellAt ((st.board.set i (some p)).set m0.index none) j = none := by
          rw [hjj]
          exact cellAt_set_none _ _
        rw [hcj]
        constructor
        · intro h
          cases h
        · rintro ⟨m, hm, hq, hidx⟩
          obtain ⟨hm1, hm2⟩ := List.mem_filter.mp hm
          rw [hidx_j_unique m hm1 (hidx.trans hjj)] at hm2
          rw [hpredm0] at hm2
          cases hm2
      · by_cases hji2 : j = i
        · have hcj : cellAt ((st.board.set i (some p)).set m0.index none) j =
              some p := by
            rw [hji2, cellAt, getD_set_ne _ _ hji, getD_set_self _ _ hilen]
          rw [hcj]
          constructor
          · intro h
            obtain rfl : p = q := by injection h
            exact ⟨MoveInfo.mk p i st.clock,
              List.mem_filter.mpr ⟨hnewmem, hprednm⟩, rfl, hji2.symm⟩
          · rintro ⟨m, hm, hq, hidx⟩
            obtain ⟨hm1, -⟩ := List.mem_filter.mp hm
            rw [hidx_i_unique m hm1 (hidx.trans hji2)] at hq
            rw [← hq]
        · have hcj : cellAt ((st.board.set i (some p)).set m0.index none) j =
              cellAt st.board j := by
            rw [cellAt, getD_set_ne _ _ (fun hx => hjj hx.symm),
              getD_set_ne _ _ (fun hx => hji2 hx.symm)]
            rfl
          rw [hcj, hst.coherent j q]
          constructor
          · rintro ⟨m, hm, hq, hidx⟩
            refine ⟨m, List.mem_filter.mpr ⟨List.mem_append.mpr (Or.inl hm), ?_⟩,
              hq, hidx⟩
            simp only [Bool.not_eq_true']
            rw [Bool.and_eq_false_iff]
            left
            rw [beq_eq_false_iff_ne, hidx]
            exact hjj
          · rintro ⟨m, hm, hq, hidx⟩
            obtain ⟨hm1, -⟩ := List.mem_filter.mp hm
            rcases List.mem_append.mp hm1 with hm1 | hm1
            · exact ⟨m, hm1, hq, hidx⟩
            · rw [List.mem_singleton.mp hm1] at hidx
              exact absurd hidx.symm hji2
    · -- counts
      intro q
      have hXj : (st.board.set i (some p))[m0.index] = some p := by
        rw [← cellAt_eq_getElem _ _ hjlen']
        rw [cellAt, getD_set_ne _ _ (Ne.symm hji)]
        exact hcellj
      rw [List.countP_set _ _ _ _ hjlen', hXj,
        List.countP_set _ _ _ _ hilen, hbi]
      by_cases hq : q = p
      · subst hq
        rw [hfp', List.length_append, List.length_singleton, ht0len]
        have hc := hst.counts q
        rw [hlen3] at hc
        rw [hc]
        simp
      · rw [hfilter_q' q hq, ← hst.counts q]
        have h1 : ((none : Option Player) == some q) = false := by simp
        have h2 : ((some p : Option Player) == some q) = false := by
          rw [beq_eq_false_iff_ne]
          intro h
          exact hq (Option.some.inj h).symm
        rw [h1, h2]
        simp
    · -- capped
      intro q
      by_cases hq : q = p
      · subst hq
        rw [hfp', List.length_append, List.length_singleton, ht0len]
      · rw [hfilter_q' q hq]
        exact hst.capped q
    · -- length recurrence
      intro q
      by_cases hq : q = p
      · subst hq
        rw [if_pos rfl, hfp', List.length_append, List.length_singleton, ht0len,
          hlen3]
        omega
      · rw [if_neg hq, hfilter_q' q hq]

theorem runMoves_invariant (moves : List (Player × Nat)) :
    ∀ (st : InfState) (turn : Player), InfInv st → validFrom turn st moves = true →
      InfInv (runMoves st moves) ∧
      ∀ q : Player,
        ((runMoves st moves).history.filter (fun m => m.player == q)).length =
          min ((st.history.filter (fun m => m.player == q)).length +
            moves.countP (fun mv => mv.1 == q)) 3 := by
  induction moves with
  | nil =>
    intro st turn hst _
    refine ⟨hst, fun q => ?_⟩
    have := hst.capped q
    simp only [runMoves, List.countP_nil, Nat.add_zero]
    omega
  | cons mv rest ih =>
    obtain ⟨p, i⟩ := mv
    intro st turn hst hv
    simp only [validFrom, Bool.and_eq_true, beq_iff_eq, decide_eq_true_eq] at hv
    obtain ⟨⟨⟨hp, hi⟩, hcell⟩, hrest⟩ := hv
    have hcell' : cellAt st.board i = none := by simpa using hcell
    obtain ⟨hinv', hlen'⟩ := infStep_inv st p i hst hi hcell'
    obtain ⟨hinvf, hlenf⟩ := ih (infStep st p i) turn.other hinv' hrest
    refine ⟨by simpa [runMoves] using hinvf, fun q => ?_⟩
    have h1 := hlenf q
    have h2 := hlen' q
    have hcap := hst.capped q
    simp only [runMoves]
    rw [h1, h2]
    by_cases hq : q = p
    · subst hq
      rw [if_pos rfl]
      have hcnt : (((q, i) :: rest).countP (fun mv => mv.1 == q)) =
          rest.countP (fun mv => mv.1 == q) + 1 := by
        rw [List.countP_cons]
        simp
      rw [hcnt]
      omega
    · rw [if_neg hq]
      have hcnt : (((p, i) :: rest).countP (fun mv => mv.1 == q)) =
          rest.countP (fun mv => mv.1 == q) := by
        rw [List.countP_cons]
        have hne : ((p, i).1 == q) = false := by
          rw [beq_eq_false_iff_ne]
          exact fun h => hq h.symm
        simp [hne]
      rw [hcnt]

/-- C3: in the eviction variant, starting from the empty board and empty
history, after any valid alternating sequence of accepted moves (each to an
in-range empty cell), each player holds exactly `min(k, 3)` live marks on
the board and exactly `min(k, 3)` history entries, where `k` is the number
of moves that player has made; the two players' counts evolve independently
of each other's moves. -/
theorem infinity_live_marks_eq_min (first : Player) (moves : List (Player × Nat))
    (hvalid : validFrom first infStart moves = true) (p : Player) :
    (runMoves infStart moves).board.countP (fun c => c == some p) =
      min (moves.countP (fun mv => mv.1 == p)) 3 ∧
    ((runMoves infStart moves).history.filter (fun m => m.player == p)).length =
      min (moves.countP (fun mv => mv.1 == p)) 3 := by
  obtain ⟨hinv, hlen⟩ := runMoves_invariant moves infStart first infInv_start hvalid
  have h1 := hlen p
  simp only [show infStart.history = [] from rfl, List.filter_nil,
    List.length_nil, Nat.zero_add] at h1
  exact ⟨by rw [hinv.counts p, h1], h1⟩

/-- Witness for C3: seven alternating moves; X has made 4 moves and holds
exactly `min(4, 3) = 3` live marks and history entries. -/
theorem infinity_live_marks_eq_min_witness :
    (runMoves infStart
        [(Player.X, 0), (Player.O, 4), (Player.X, 1), (Player.O, 5),
          (Player.X, 2), (Player.O, 6), (Player.X, 3)]).board.countP
        (fun c => c == some Player.X) =
      min ([(Player.X, 0), (Player.O, 4), (Player.X, 1), (Player.O, 5),
          (Player.X, 2), (Player.O, 6), (Player.X, 3)].countP
        (fun mv => mv.1 == Player.X)) 3 ∧
    ((runMoves infStart
        [(Player.X, 0), (Player.O, 4), (Player.X, 1), (Player.O, 5),
          (Player.X, 2), (Player.O, 6), (Player.X, 3)]).history.filter
        (fun m => m.player == Player.X)).length =
      min ([(Player.X, 0), (Player.O, 4), (Player.X, 1), (Player.O, 5),
          (Player.X, 2), (Player.O, 6), (Player.X, 3)].countP
        (fun mv => mv.1 == Player.X)) 3 :=
  infinity_live_marks_eq_min Player.X
    [(Player.X, 0), (Player.O, 4), (Player.X, 1), (Player.O, 5),
      (Player.X, 2), (Player.O, 6), (Player.X, 3)] (by decide) Player.X

/-! ## The god tier can lose a game (C5)

The losing game is evaluated in-kernel.  To keep every single declaration's
kernel check small, the two minimax-backed god replies are split into
per-child score lemmas that are recombined by rewriting. -/

/-- The board after the human's opening move X0. -/
def c5board1 : Board :=
  [some Player.X, none, none, none, none, none, none, none, none]

/-- The board after X0, O4, X5. -/
def c5board2 : Board :=
  [some Player.X, none, none, none, some Player.O, some Player.X, none, none, none]

/-- One step of the best-move loop, with the child's minimax score factored
out so it can be supplied by a separate lemma. -/
theorem bestMoveLoop_cons (board : Board) (boardSize : BoardSize) (m : Nat)
    (rest : List Nat) (bestScore : JNum) (best : Int) (s : JNum)
    (hs : minimax (board.length + 1) (board.set m (some Player.O)) 0 false
      JNum.negInf JNum.posInf boardSize = s) :
    bestMoveLoop board boardSize (m :: rest) bestScore best =
      if JNum.lt bestScore s then bestMoveLoop board boardSize rest s (m : Int)
      else bestMoveLoop board boardSize rest bestScore best := by
  rw [bestMoveLoop]
  simp only [hs]

set_option maxHeartbeats 1000000 in
theorem c5child1 : minimax (c5board1.length + 1) (c5board1.set 1 (some Player.O))
    0 false JNum.negInf JNum.posInf .x33 = .num (-5) := by decide

set_option maxHeartbeats 1000000 in
theorem c5child2 : minimax (c5board1.length + 1) (c5board1.set 2 (some Player.O))
    0 false JNum.negInf JNum.posInf .x33 = .num (-5) := by decide

set_option maxHeartbeats 1000000 in
theorem c5child3 : minimax (c5board1.length + 1) (c5board1.set 3 (some Player.O))
    0 false JNum.negInf JNum.posInf .x33 = .num (-5) := by decide

set_option maxHeartbeats 1000000 in
theorem c5child4 : minimax (c5board1.length + 1) (c5board1.set 4 (some Player.O))
    0 false JNum.negInf JNum.posInf .x33 = .num 0 := by decide

set_option maxHeartbeats 1000000 in
theorem c5child5 : minimax (c5board1.length + 1) (c5board1.set 5 (some Player.O))
    0 false JNum.negInf JNum.posInf .x33 = .num (-5) := by decide

set_option maxHeartbeats 1000000 in
theorem c5child6 : minimax (c5board1.length + 1) (c5board1.set 6 (some Player.O))
    0 false JNum.negInf JNum.posInf .x33 = .num (-5) := by decide

set_option maxHeartbeats 1000000 in
theorem c5child7 : minimax (c5board1.length + 1) (c5board1.set 7 (some Player.O))
    0 false JNum.negInf JNum.posInf .x33 = .num (-5) := by decide

set_option maxHeartbeats 1000000 in
theorem c5child8 : minimax (c5board1.length + 1) (c5board1.set 8 (some Player.O))
    0 false JNum.negInf JNum.posInf .x33 = .num (-5) := by decide

/-- The god tier answers the opening X0 with the center, cell 4. -/
theorem c5reply1 : getAIMove c5board1 .god .x33 (fun _ => 0) = 4 := by
  have havail : availableMoves c5board1 = [1, 2, 3, 4, 5, 6, 7, 8] := by decide
  have htw : tryWinBlock c5board1 .x33 [1, 2, 3, 4, 5, 6, 7, 8] = none := by decide
  have hloop : bestMoveLoop c5board1 .x33 [1, 2, 3, 4, 5, 6, 7, 8]
      JNum.negInf (1 : Int) = 4 := by
    rw [bestMoveLoop_cons _ _ _ _ _ _ _ c5child1, if_pos (by decide)]
    rw [bestMoveLoop_cons _ _ _ _ _ _ _ c5child2, if_neg (by decide)]
    rw [bestMoveLoop_cons _ _ _ _ _ _ _ c5child3, if_neg (by decide)]
    rw [bestMoveLoop_cons _ _ _ _ _ _ _ c5child4, if_pos (by decide)]
    rw [bestMoveLoop_cons _ _ _ _ _ _ _ c5child5, if_neg (by decide)]
    rw [bestMoveLoop_cons _ _ _ _ _ _ _ c5child6, if_neg (by decide)]
    rw [bestMoveLoop_cons _ _ _ _ _ _ _ c5child7, if_neg (by decide)]
    rw [bestMoveLoop_cons _ _ _ _ _ _ _ c5child8, if_neg (by decide)]
    rfl
  simp [getAIMove, havail, htw, hloop]

set_option maxHeartbeats 1000000 in
/-- At `X:{0,5} O:{4}` the god tier replies cell 1. -/
theorem c5reply2 : getAIMove c5board2 .god .x33 (fun _ => 0) = 1 := by decide

set_option maxHeartbeats 1000000 in
/-- At `X:{0,5,6} O:{1,4}` the per-cell fast path blocks at 3 although O can
win immediately at 7 (line 1-4-7). -/
theorem c5reply3 : getAIMove
    [some Player.X, some Player.O, none, none, some Player.O, some Player.X,
      some Player.X, none, none] .god .x33 (fun _ => 0) = 3 := by decide

set_option maxHeartbeats 1000000 in
/-- At `X:{0,5,6,8} O:{1,3,4}` the fast path again blocks at 2 instead of
winning at 7. -/
theorem c5reply4 : getAIMove
    [some Player.X, some Player.O, none, some Player.O, some Player.O,
      some Player.X, some Player.X, none, some Player.X] .god .x33
    (fun _ => 0) = 2 := by decide

/-- One non-terminal step of a god game, with the god reply factored out. -/
theorem runGodGame_step (board : Board) (m : Nat) (rest : List Nat) (g : Int)
    (h1 : (checkWinner board .x33).winner = none)
    (h2 : cellAt board m = none)
    (h3 : (checkWinner (board.set m (some Player.X)) .x33).winner = none)
    (h4 : getAIMove (board.set m (some Player.X)) .god .x33 (fun _ => 0) = g) :
    runGodGame board (m :: rest) =
      runGodGame ((board.set m (some Player.X)).set g.toNat (some Player.O)) rest := by
  rw [runGodGame]
  rw [if_neg (by simp [h1]), if_neg (by simp [h2])]
  simp only [h3, h4]
  rw [if_neg (by simp)]

/-- C5 fails on the code: a full game from the empty board in which the
computer's O moves are all chosen by `getAIMove(board, 'god')` ends in a
human (X) win.  X plays 0, 5, 6, 8, 7; the god tier replies 4, 1, 3, 2 —
at `X:{0,5,6} O:{1,4}` it holds an immediate win at 7 (line 1-4-7) but the
per-cell fast path blocks at 3 first, and at `X:{0,5,6,8} O:{1,3,4}` it
again blocks at 2 instead of winning at 7, letting X complete 6-7-8. -/
theorem god_tier_allows_human_win :
    (runGodGame emptyBoard3 [0, 5, 6, 8, 7]).map
      (fun b => (checkWinner b .x33).winner) = some (some (.mark .X)) := by
  rw [runGodGame_step emptyBoard3 0 _ 4 (by decide) (by decide) (by decide)
    (by rw [show emptyBoard3.set 0 (some Player.X) = c5board1 from by decide]
        exact c5reply1)]
  rw [show (emptyBoard3.set 0 (some Player.X)).set (Int.toNat 4) (some Player.O) =
    [some Player.X, none, none, none, some Player.O, none, none, none, none]
    from by decide]
  rw [runGodGame_step _ 5 _ 1 (by decide) (by decide) (by decide)
    (by rw [show ([some Player.X, none, none, none, some Player.O, none, none,
          none, none] : Board).set 5 (some Player.X) = c5board2 from by decide]
        exact c5reply2)]
  rw [show (([some Player.X, none, none, none, some Player.O, none, none, none,
    none] : Board).set 5 (some Player.X)).set (Int.toNat 1) (some Player.O) =
    [some Player.X, some Player.O, none, none, some Player.O, some Player.X,
      none, none, none] from by decide]
  rw [runGodGame_step _ 6 _ 3 (by decide) (by decide) (by decide)
    (by rw [show ([some Player.X, some Player.O, none, none, some Player.O,
          some Player.X, none, none, none] : Board).set 6 (some Player.X) =
          [some Player.X, some Player.O, none, none, some Player.O,
            some Player.X, some Player.X, none, none] from by decide]
        exact c5reply3)]
  rw [show (([some Player.X, some Player.O, none, none, some Player.O,
    some Player.X, none, none, none] : Board).set 6 (some Player.X)).set
    (Int.toNat 3) (some Player.O) =
    [some Player.X, some Player.O, none, some Player.O, some Player.O,
      some Player.X, some Player.X, none, none] from by decide]
  rw [runGodGame_step _ 8 _ 2 (by decide) (by decide) (by decide)
    (by rw [show ([some Player.X, some Player.O, none, some Player.O,
          some Player.O, some Player.X, some Player.X, none, none] : Board).set
          8 (some Player.X) =
          [some Player.X, some Player.O, none, some Player.O, some Player.O,
            some Player.X, some Player.X, none, some Player.X] from by decide]
        exact c5reply4)]
  rw [show (([some Player.X, some Player.O, none, some Player.O, some Player.O,
    some Player.X, some Player.X, none, none] : Board).set 8
    (some Player.X)).set (Int.toNat 2) (some Player.O) =
    [some Player.X, some Player.O, some Player.O, some Player.O, some Player.O,
      some Player.X, some Player.X, none, some Player.X] from by decide]
  decide
